import Mathlib

/-
  Verification development for the flatbush spatial index
  (bmharper/flatbush-go).

  Shallow embedding notes:
  * Coordinates are modelled as `Int`.  The algorithm (box accumulation,
    tree packing, search) only uses the order structure, `min`/`max` and
    comparisons on coordinates; the repository instantiates the same code
    at `float32`, `float64` and at every integer width (the generic
    `Coord` version), and finite floating-point values embed into a
    totally ordered numeric domain.  The `math.MaxFloat64` sentinel of
    `InvertedBox` is modelled by the constant `CMAX`.
  * Go slices become `List`s; in-place writes become `List.set`;
    out-of-range reads (which panic in Go) are modelled by `List.getD`
    with a default, and the proofs establish that the default is never
    consulted on the executions the claims are about.
  * Loops are modelled by structurally recursive functions with an
    explicit fuel argument that is always sufficient on the executions
    the claims are about (exhausted fuel returns the current state, a
    divergence marker).  This keeps every definition executable by
    kernel reduction.
  * `uint32` values (Hilbert ranks) are modelled as `Nat`; every
    operation of `hilbertXYToIndex`/`interleave` provably stays below
    2^32 when the inputs do, so no explicit reduction mod 2^32 is
    needed there (masks and right shifts never enlarge values, and the
    left shifts are immediately masked or bounded).
-/

namespace Flatbush

/-- `Box64` / `Box[T]` from the source: an axis-aligned box plus the
`Index` field (insertion index for leaves, child-window start for
internal nodes, `-1` in `InvertedBox`). -/
structure Box where
  minX : Int
  minY : Int
  maxX : Int
  maxY : Int
  index : Int
deriving Repr, DecidableEq

/-- Magnitude of the `math.MaxFloat64` sentinel used by `InvertedBox`
(finite `float64` values all have absolute value below `2 ^ 1024`). -/
def CMAX : Int := Int.ofNat ((2 : Nat) ^ 1024)

/-- `InvertedBox` from the source: the neutral element for bounding-box
union. -/
def invertedBox : Box := ⟨CMAX, CMAX, -CMAX, -CMAX, -1⟩

/-- Total array access; Go would panic out of range, the proofs show the
default is never consulted on the relevant executions. -/
def boxAt (B : List Box) (p : Nat) : Box := B.getD p invertedBox

/-! ### Hilbert curve (`hilbertXYToIndex`, `interleave` from common.go) -/

/-- `interleave` from the source (bit interleave of a 16-bit value into
even positions). -/
def interleave (x : Nat) : Nat :=
  let x1 := (x ||| (x <<< 8)) &&& 0x00FF00FF
  let x2 := (x1 ||| (x1 <<< 4)) &&& 0x0F0F0F0F
  let x3 := (x2 ||| (x2 <<< 2)) &&& 0x33333333
  (x3 ||| (x3 <<< 1)) &&& 0x55555555

/-- `hilbertXYToIndex` from the source, the order-`n` Hilbert rank of a
2D point, as a straight transcription of the bit-manipulation network. -/
def hilbertXYToIndex (n x0 y0 : Nat) : Nat :=
  let x := x0 <<< (16 - n)
  let y := y0 <<< (16 - n)
  -- initial prefix scan round, primed with x and y
  let a0 := x ^^^ y
  let b0 := 0xFFFF ^^^ a0
  let c0 := 0xFFFF ^^^ (x ||| y)
  let d0 := x &&& (y ^^^ 0xFFFF)
  let A0 := a0 ||| (b0 >>> 1)
  let B0 := (a0 >>> 1) ^^^ a0
  let C0 := ((c0 >>> 1) ^^^ (b0 &&& (d0 >>> 1))) ^^^ c0
  let D0 := ((a0 &&& (c0 >>> 1)) ^^^ (d0 >>> 1)) ^^^ d0
  -- distance-2 round
  let A1 := (A0 &&& (A0 >>> 2)) ^^^ (B0 &&& (B0 >>> 2))
  let B1 := (A0 &&& (B0 >>> 2)) ^^^ (B0 &&& ((A0 ^^^ B0) >>> 2))
  let C1 := C0 ^^^ ((A0 &&& (C0 >>> 2)) ^^^ (B0 &&& (D0 >>> 2)))
  let D1 := D0 ^^^ ((B0 &&& (C0 >>> 2)) ^^^ ((A0 ^^^ B0) &&& (D0 >>> 2)))
  -- distance-4 round
  let A2 := (A1 &&& (A1 >>> 4)) ^^^ (B1 &&& (B1 >>> 4))
  let B2 := (A1 &&& (B1 >>> 4)) ^^^ (B1 &&& ((A1 ^^^ B1) >>> 4))
  let C2 := C1 ^^^ ((A1 &&& (C1 >>> 4)) ^^^ (B1 &&& (D1 >>> 4)))
  let D2 := D1 ^^^ ((B1 &&& (C1 >>> 4)) ^^^ ((A1 ^^^ B1) &&& (D1 >>> 4)))
  -- final round and projection (distance 8, only C and D)
  let C3 := C2 ^^^ ((A2 &&& (C2 >>> 8)) ^^^ (B2 &&& (D2 >>> 8)))
  let D3 := D2 ^^^ ((B2 &&& (C2 >>> 8)) ^^^ ((A2 ^^^ B2) &&& (D2 >>> 8)))
  -- undo transformation prefix scan
  let a := C3 ^^^ (C3 >>> 1)
  let b := D3 ^^^ (D3 >>> 1)
  -- recover index bits
  let i0 := x ^^^ y
  let i1 := b ||| (0xFFFF ^^^ (i0 ||| a))
  ((interleave i1 <<< 1) ||| interleave i0) >>> (32 - 2 * n)

/-! ### The dual-key quicksort (`sortValuesAndBoxes` from common.go) -/

/-- The inner `for values[i] < pivot { i++ }` scan.  The bound check
mirrors Go's slice bound panic as an early exit; the correctness proofs
show the scan always stops strictly inside the array on the calls the
algorithm makes. -/
def scanUp (values : List Nat) (pivot : Nat) : Nat → Nat → Nat
  | 0, i => i
  | fuel + 1, i =>
    if i < values.length then
      if values.getD i 0 < pivot then scanUp values pivot fuel (i + 1) else i
    else i

/-- The inner `for values[j] > pivot { j-- }` scan.  Reaching `j = 0`
with a value still above the pivot would panic in Go; the proofs show
this cannot happen on the calls the algorithm makes. -/
def scanDown (values : List Nat) (pivot : Nat) : Nat → Nat → Nat
  | 0, j => j
  | fuel + 1, j =>
    if pivot < values.getD j 0 then
      (if j = 0 then 0 else scanDown values pivot fuel (j - 1))
    else j

/-- Simultaneous swap `values[i],values[j] = values[j],values[i]` applied
to both co-indexed arrays. -/
def swapBoth (vs : List Nat) (bs : List Box) (i j : Nat) : List Nat × List Box :=
  ((vs.set i (vs.getD j 0)).set j (vs.getD i 0),
   (bs.set i (bs.getD j invertedBox)).set j (bs.getD i invertedBox))

/-- The Hoare partition loop of `sortValuesAndBoxes`.  The state `(i, j)`
holds the start positions of the next upward and downward scans (the Go
code keeps `i-1` and `j+1` and pre-increments).  Returns the final `j`
together with the updated arrays. -/
def partitionLoop (pivot : Nat) : Nat → List Nat → List Box → Nat → Nat →
    List Nat × List Box × Nat
  | 0, vs, bs, _, j => (vs, bs, j)
  | fuel + 1, vs, bs, i, j =>
    let i2 := scanUp vs pivot (vs.length + 1) i
    let j2 := scanDown vs pivot (j + 1) j
    if j2 ≤ i2 then (vs, bs, j2)
    else
      let p := swapBoth vs bs i2 j2
      partitionLoop pivot fuel p.1 p.2 (i2 + 1) (j2 - 1)

/-- `sortValuesAndBoxes` from the source: in-place quicksort of the
Hilbert values, applying every swap to the box array as well. -/
def sortValuesAndBoxes : Nat → List Nat → List Box → Nat → Nat →
    List Nat × List Box
  | 0, vs, bs, _, _ => (vs, bs)
  | fuel + 1, vs, bs, left, right =>
    if right ≤ left then (vs, bs)
    else
      let pivot := vs.getD ((left + right) / 2) 0
      let r := partitionLoop pivot (right + 2 - left) vs bs left right
      let r2 := sortValuesAndBoxes fuel r.1 r.2.1 left r.2.2
      sortValuesAndBoxes fuel r2.1 r2.2 (r.2.2 + 1) right

/-! ### Level bounds and bottom-up tree packing (`finishIndexBuild`) -/

/-- The `for { n = (n + nodeSize - 1) / nodeSize; ... }` do-while loop of
`finishIndexBuild` that records the exclusive end offset of every tree
level. -/
def buildLevelBoundsGo (ns : Nat) : Nat → Nat → Nat → List Nat
  | 0, _, _ => []
  | fuel + 1, n, numNodes =>
    let n2 := (n + ns - 1) / ns
    let numNodes2 := numNodes + n2
    if n2 ≤ 1 then [numNodes2] else numNodes2 :: buildLevelBoundsGo ns fuel n2 numNodes2

/-- `levelBounds` as computed by `finishIndexBuild`: `numItems` followed
by the running node totals of each packed level. -/
def buildLevelBounds (ns numItems : Nat) : List Nat :=
  numItems :: buildLevelBoundsGo ns (numItems + 1) numItems numItems

/-- One `min`/`max` accumulation step of the parent-box loop. -/
def unionStep (nb b : Box) : Box :=
  ⟨min nb.minX b.minX, min nb.minY b.minY, max nb.maxX b.maxX, max nb.maxY b.maxY, nb.index⟩

/-- The parent box built for the window of positions `[s, s+len)`:
`InvertedBox` with `Index = s`, folded with the window's boxes. -/
def unionRange (B : List Box) (s len : Nat) : Box :=
  (List.range' s len).foldl (fun nb p => unionStep nb (boxAt B p))
    ⟨CMAX, CMAX, -CMAX, -CMAX, (s : Int)⟩

/-- The parent node generated at window start `pos` for a level ending at
`e` (the window is clipped at the level boundary). -/
def parentNode (ns : Nat) (B : List Box) (pos e : Nat) : Box :=
  unionRange B pos (min (pos + ns) e - pos)

/-- The `for pos < end` loop of one level of `finishIndexBuild`: the
parent nodes of every window of the level `[pos, e)`, in order. -/
def levelParentsGo (ns : Nat) (B : List Box) (e : Nat) : Nat → Nat → List Box
  | 0, _ => []
  | fuel + 1, pos =>
    if pos < e then parentNode ns B pos e :: levelParentsGo ns B e fuel (min (pos + ns) e)
    else []

/-- All parent nodes of the level `[pos, e)`. -/
def levelParents (ns : Nat) (B : List Box) (pos e : Nat) : List Box :=
  levelParentsGo ns B e (e - pos + 1) pos

/-- The outer `for i := 0; i < len(levelBounds)-1; i++` loop: pack every
level bottom-up, appending each level's parents to the flat array.
`ends` is `levelBounds.dropLast`, `pos` threads through as in the
source. -/
def packSegments (ns : Nat) : List Nat → List Box → Nat → List Box
  | [], B, _ => B
  | e :: rest, B, pos => packSegments ns rest (B ++ levelParents ns B pos e) e

/-- The Hilbert-space normalization of one axis:
`uint32(hilbertMax * ((lo1+hi1)/2 - lo) / (hi - lo))`.  Floating-point
arithmetic is modelled by integer arithmetic with truncation toward zero
(`Int.tdiv`); the resulting rank assignment is deterministic, and no
claim depends on the concrete rank values. -/
def hilbertCoord (lo hi lo1 hi1 : Int) : Nat :=
  (Int.tdiv (65535 * (Int.tdiv (lo1 + hi1) 2 - lo)) (hi - lo)).toNat % 2 ^ 32

/-- The `for i := 0; i < len(boxes); i++` loop computing one Hilbert rank
per box from its center, normalized by the overall bounds. -/
def hilbertValuesOf (bounds : Box) (boxes : List Box) : List Nat :=
  boxes.map fun b =>
    hilbertXYToIndex 16 (hilbertCoord bounds.minX bounds.maxX b.minX b.maxX)
      (hilbertCoord bounds.minY bounds.maxY b.minY b.maxY)

/-- `finishIndexBuild` from common.go: clamp the node size, compute the
level bounds, the Hilbert ranks, sort, and pack the tree bottom-up.
Returns `(nodeSize, levelBounds, hilbertValues, boxes)`. -/
def finishIndexBuild (nodeSize : Int) (boxes : List Box) (bounds : Box) :
    Int × List Nat × List Nat × List Box :=
  let ns : Int := if nodeSize < 2 then 2 else nodeSize
  let nsN : Nat := ns.toNat
  let numItems := boxes.length
  let levelBounds := buildLevelBounds nsN numItems
  let hv := hilbertValuesOf bounds boxes
  let sorted :=
    if boxes.length ≠ 0 then sortValuesAndBoxes (boxes.length + 1) hv boxes 0 (boxes.length - 1)
    else (hv, boxes)
  let boxesF := packSegments nsN levelBounds.dropLast sorted.2 0
  (ns, levelBounds, sorted.1, boxesF)

/-! ### The query engine (`searchInTree` from common.go) -/

/-- The `for pos := nodeIndex; pos < end; pos++` scan of one popped
window: returns the emitted leaf hits (scan order) and the internal
children to push (scan order).  `w` is the window start (the popped
`nodeIndex`), `lev` its level. -/
def scanWindow (numItems : Nat) (B : List Box) (qMinX qMinY qMaxX qMaxY : Int)
    (w lev : Nat) : List Nat → List Int × List (Nat × Nat)
  | [] => ([], [])
  | p :: rest =>
    let r := scanWindow numItems B qMinX qMinY qMaxX qMaxY w lev rest
    if qMaxX < (boxAt B p).minX ∨ qMaxY < (boxAt B p).minY ∨
        qMinX > (boxAt B p).maxX ∨ qMinY > (boxAt B p).maxY then r
    else if w < numItems then ((boxAt B p).index :: r.1, r.2)
    else (r.1, ((boxAt B p).index.toNat, lev - 1) :: r.2)

/-- The `for len(queue) != 0` loop.  The Go queue is an array pushed and
popped at its end; it is modelled as a list whose head is the next pop,
so a scan's pushes are prepended in reverse scan order. -/
def searchLoop (ns numItems : Nat) (LB : List Nat) (B : List Box)
    (qMinX qMinY qMaxX qMaxY : Int) : Nat → List (Nat × Nat) → List Int → List Int
  | 0, _, acc => acc
  | _ + 1, [], acc => acc
  | fuel + 1, (w, lev) :: rest, acc =>
    let e := min (w + ns) (LB.getD lev 0)
    let s := scanWindow numItems B qMinX qMinY qMaxX qMaxY w lev (List.range' w (e - w))
    searchLoop ns numItems LB B qMinX qMinY qMaxX qMaxY fuel (s.2.reverse ++ rest) (acc ++ s.1)

/-- `searchInTree` from common.go.  The `results` argument is truncated
to length zero before anything else (`results = results[:0]`), so its
prior contents never influence the output; the fuel is always sufficient
on finished indexes (each queue entry of level `lev` accounts for at
most `(ns+1)^lev` pops). -/
def searchInTree (ns numItems : Nat) (LB : List Nat) (B : List Box)
    (qMinX qMinY qMaxX qMaxY : Int) (results : List Int) : List Int :=
  if LB.length = 0 then []
  else if B.length = 0 then []
  else
    searchLoop ns numItems LB B qMinX qMinY qMaxX qMaxY
      ((ns + 1) ^ LB.length) [(B.length - 1, LB.length - 1)] []

/-! ### The public `Flatbush` structure (flatbush.go) -/

/-- The `Flatbush64` structure (equivalently the generic `Flatbush[T]`). -/
structure FB where
  nodeSize : Int
  boxes : List Box
  bounds : Box
  hilbertValues : List Nat
  levelBounds : List Nat
  numItems : Nat
deriving Repr, DecidableEq

/-- `NewFlatbush()`. -/
def newFlatbush : FB := ⟨16, [], invertedBox, [], [], 0⟩

/-- `Add`: append the box with `Index` equal to the current count, update
the running overall bounds, return the index. -/
def FB.add (f : FB) (minX minY maxX maxY : Int) : FB × Int :=
  (⟨f.nodeSize,
    f.boxes ++ [⟨minX, minY, maxX, maxY, (f.boxes.length : Int)⟩],
    ⟨min f.bounds.minX minX, min f.bounds.minY minY,
     max f.bounds.maxX maxX, max f.bounds.maxY maxY, f.bounds.index⟩,
    f.hilbertValues, f.levelBounds, f.numItems⟩,
   (f.boxes.length : Int))

/-- `Reserve`: `f.boxes = make([]Box64, 0, numNodes)`.  The capacity
computation is unobservable and not modelled; the observable effect is
that the box list is replaced by an empty one while every other field is
kept. -/
def FB.reserve (f : FB) (size : Int) : FB :=
  ⟨f.nodeSize, [], f.bounds, f.hilbertValues, f.levelBounds, f.numItems⟩

/-- `Finish`: record `numItems` and run `finishIndexBuild`. -/
def FB.finish (f : FB) : FB :=
  let r := finishIndexBuild f.nodeSize f.boxes f.bounds
  ⟨r.1, r.2.2.2, f.bounds, r.2.2.1, r.2.1, f.boxes.length⟩

/-- `SearchFast`. -/
def FB.searchFast (f : FB) (qMinX qMinY qMaxX qMaxY : Int) (results : List Int) : List Int :=
  searchInTree f.nodeSize.toNat f.numItems f.levelBounds f.boxes qMinX qMinY qMaxX qMaxY results

/-- `Search`: `SearchFast` with a freshly allocated result list. -/
def FB.search (f : FB) (qMinX qMinY qMaxX qMaxY : Int) : List Int :=
  f.searchFast qMinX qMinY qMaxX qMaxY []

/-! ### Proof apparatus: level structure and subtree semantics

These definitions are not part of the embedded program; they are the
specification vocabulary used to state and prove the structural
invariants of the packed tree and the semantics of the traversal. -/

/-- The array position at which level `i` starts: level 0 (the leaves)
starts at 0, level `i ≥ 1` starts at the previous level's bound. -/
def startOf (LB : List Nat) (i : Nat) : Nat := if i = 0 then 0 else LB.getD (i - 1) 0

/-- One packed layer: the child level occupies `[s, e)`, its parents
occupy `[e, e2)`; there are ceil((e-s)/ns) parents and the `k`-th parent
is the window union starting at `s + k*ns`, clipped at `e`. -/
def LayerOK (ns : Nat) (B : List Box) (s e e2 : Nat) : Prop :=
  e2 = e + (e - s + ns - 1) / ns ∧
  ∀ k, e + k < e2 → boxAt B (e + k) = parentNode ns B (s + k * ns) e

/-- The whole packed tree above the level `[s, e)`, with the remaining
level bounds `ends`; the topmost level is a single root node and ends
exactly at the array's length. -/
def TreeOK (ns : Nat) (B : List Box) : Nat → Nat → List Nat → Prop
  | s, e, [] => B.length = e ∧ e = s + 1
  | s, e, e2 :: rest => s < e ∧ LayerOK ns B s e e2 ∧ TreeOK ns B e e2 rest

/-- The level-size recurrence produced by the level-bounds loop:
`Chain ns n m rest` says the loop, continued from a level of `n` nodes
and `m` total nodes, emits exactly the bounds `rest`. -/
inductive Chain (ns : Nat) : Nat → Nat → List Nat → Prop
  | last : ∀ n m, (n + ns - 1) / ns ≤ 1 → Chain ns n m [m + (n + ns - 1) / ns]
  | step : ∀ n m rest, 1 < (n + ns - 1) / ns →
      Chain ns ((n + ns - 1) / ns) (m + (n + ns - 1) / ns) rest →
      Chain ns n m ((m + (n + ns - 1) / ns) :: rest)

/-- The positive form of the query/box intersection test used by the
search scan (the negation of the four rejection comparisons). -/
def hitTest (qMinX qMinY qMaxX qMaxY : Int) (b : Box) : Bool :=
  if qMaxX < b.minX ∨ qMaxY < b.minY ∨ qMinX > b.maxX ∨ qMinY > b.maxY then false else true

/-- All leaf positions in the subtree rooted at window `(w, lev)`, as a
multiset (no pruning). -/
def subLeavesPos (ns : Nat) (LB : List Nat) (B : List Box) : Nat → Nat → Multiset Nat
  | 0, w => ↑(List.range' w (min (w + ns) (LB.getD 0 0) - w))
  | lev + 1, w =>
      ((List.range' w (min (w + ns) (LB.getD (lev + 1) 0) - w)).map
        (fun p => subLeavesPos ns LB B lev ((boxAt B p).index.toNat))).sum

/-- The hits the traversal emits from the subtree rooted at window
`(w, lev)`: internal windows descend only through children passing the
intersection test, the leaf window emits the passing boxes' `Index`
fields. -/
def subHits (ns : Nat) (LB : List Nat) (B : List Box)
    (qMinX qMinY qMaxX qMaxY : Int) : Nat → Nat → Multiset Int
  | 0, w =>
      ↑(((List.range' w (min (w + ns) (LB.getD 0 0) - w)).filter
          (fun p => hitTest qMinX qMinY qMaxX qMaxY (boxAt B p))).map
        (fun p => (boxAt B p).index))
  | lev + 1, w =>
      (((List.range' w (min (w + ns) (LB.getD (lev + 1) 0) - w)).filter
          (fun p => hitTest qMinX qMinY qMaxX qMaxY (boxAt B p))).map
        (fun p => subHits ns LB B qMinX qMinY qMaxX qMaxY lev ((boxAt B p).index.toNat))).sum

/-- A well-formed traversal queue entry: `w` is an aligned window start
inside level `lev`. -/
def ValidEntry (ns : Nat) (LB : List Nat) (lev w : Nat) : Prop :=
  lev < LB.length ∧ startOf LB lev ≤ w ∧ w < LB.getD lev 0 ∧ (w - startOf LB lev) % ns = 0

/-- Well-formedness of a finished index: clamp bound, nonempty leaves,
array length, and the packed tree structure. -/
def WF (ns numItems : Nat) (LB : List Nat) (B : List Box) : Prop :=
  2 ≤ ns ∧ 1 ≤ numItems ∧ 2 ≤ LB.length ∧ LB.getD 0 0 = numItems ∧
  B.length = LB.getD (LB.length - 1) 0 ∧ TreeOK ns B 0 numItems LB.tail

/-- The leaf boxes an `Add` sequence starting at insertion index `k`
produces. -/
def mkBoxes (k : Nat) : List (Int × Int × Int × Int) → List Box
  | [] => []
  | s :: rest => ⟨s.1, s.2.1, s.2.2.1, s.2.2.2, (k : Int)⟩ :: mkBoxes (k + 1) rest

/-- Box containment (the partial order under which a parent's union
bounds its children). -/
def boxLE (b c : Box) : Prop :=
  c.minX ≤ b.minX ∧ c.minY ≤ b.minY ∧ b.maxX ≤ c.maxX ∧ b.maxY ≤ c.maxY

/-- A sequence of `Add` calls (the specs are `(minX, minY, maxX, maxY)`
tuples). -/
def addAll (f : FB) : List (Int × Int × Int × Int) → FB
  | [] => f
  | s :: rest => addAll (f.add s.1 s.2.1 s.2.2.1 s.2.2.2).1 rest

end Flatbush

/-! ## Theorems -/

namespace Flatbush

/-! ### Basic state-machine lemmas -/

theorem add_levelBounds (f : FB) (a b c d : Int) :
    ((f.add a b c d).1).levelBounds = f.levelBounds := rfl

theorem addAll_levelBounds (specs : List (Int × Int × Int × Int)) (f : FB) :
    (addAll f specs).levelBounds = f.levelBounds := by
  induction specs generalizing f with
  | nil => rfl
  | cons s rest ih => simpa [addAll] using ih _

theorem searchInTree_nilLB (ns numItems : Nat) (B : List Box)
    (qMinX qMinY qMaxX qMaxY : Int) (results : List Int) :
    searchInTree ns numItems [] B qMinX qMinY qMaxX qMaxY results = [] := rfl

/-- C7: with Finish never called (the level-bounds array is still absent,
i.e. empty), `Search` and `SearchFast` return the empty result for every
query and however many boxes were added. -/
theorem search_before_finish_empty (specs : List (Int × Int × Int × Int))
    (qMinX qMinY qMaxX qMaxY : Int) (buf : List Int) :
    (addAll newFlatbush specs).search qMinX qMinY qMaxX qMaxY = [] ∧
    (addAll newFlatbush specs).searchFast qMinX qMinY qMaxX qMaxY buf = [] ∧
    (addAll newFlatbush specs).levelBounds = [] := by
  have hlb : (addAll newFlatbush specs).levelBounds = [] :=
    addAll_levelBounds specs newFlatbush
  refine ⟨?_, ?_, hlb⟩ <;>
    simp [FB.search, FB.searchFast, searchInTree, hlb]

/-- C8: a `NodeSize` below 2 is silently clamped to 2 by `Finish`: the
finished index records `NodeSize = 2` and is identical to the index
finished with `NodeSize` set to 2. -/
theorem finish_clamps_nodeSize (f : FB) (h : f.nodeSize < 2) :
    (f.finish).nodeSize = 2 ∧
    f.finish = FB.finish ⟨2, f.boxes, f.bounds, f.hilbertValues, f.levelBounds, f.numItems⟩ := by
  constructor
  · simp [FB.finish, finishIndexBuild, h]
  · simp [FB.finish, finishIndexBuild, h]

theorem finish_clamps_nodeSize_witness :
    (FB.nodeSize ⟨1, [], invertedBox, [], [], 0⟩) < 2 ∧
      (FB.finish ⟨1, [], invertedBox, [], [], 0⟩).nodeSize = 2 :=
  ⟨by decide, (finish_clamps_nodeSize ⟨1, [], invertedBox, [], [], 0⟩ (by decide)).1⟩

set_option maxRecDepth 4000 in
/-- C5 counterexample: `Reserve` called after an `Add` is observably NOT
a no-op: it discards the box already added (`f.boxes = make([]Box64, 0,
numNodes)` replaces the box list with an empty one), so the later search
loses the hit that the same sequence without `Reserve` produces. -/
theorem reserve_not_noop_counterexample :
    ((newFlatbush.add 0 0 1 1).1.reserve 1).finish.search 0 0 1 1 = [] ∧
    (newFlatbush.add 0 0 1 1).1.finish.search 0 0 1 1 = [0] := by
  constructor <;> decide

/-- C5 (amended): `Reserve` has no observable effect when no boxes have
been added yet (in particular at the start of any `Add` sequence); when
boxes are already present it resets the box list to empty (discarding
them) and keeps every other field. -/
theorem reserve_noop_before_adds (f : FB) (size : Int) (h : f.boxes = []) :
    f.reserve size = f := by
  cases f
  simp only [FB.reserve] at *
  simp [h]

theorem reserve_noop_before_adds_witness :
    newFlatbush.boxes = [] ∧ newFlatbush.reserve 7 = newFlatbush :=
  ⟨rfl, reserve_noop_before_adds newFlatbush 7 rfl⟩

set_option maxRecDepth 4000 in
/-- C6 counterexample: a malformed box with `minX > maxX` (here
`minX = 5 > 3 = maxX`) IS emitted by a search whose query spans the
inverted gap: the four rejection tests all fail for query
`(0,0,10,10)`, so index 0 is returned. -/
theorem malformed_box_emitted_counterexample :
    (5 : Int) > 3 ∧
    (newFlatbush.add 5 0 3 1).1.finish.search 0 0 10 10 = [0] := by
  constructor <;> decide

end Flatbush

namespace Flatbush

/-! ### Inner-scan lemmas for the Hoare partition -/

theorem scanUp_ge (vs : List Nat) (p : Nat) :
    ∀ fuel i, i ≤ scanUp vs p fuel i := by
  intro fuel
  induction fuel with
  | zero => intro i; simp [scanUp]
  | succ f ih =>
    intro i
    simp only [scanUp]
    split
    · split
      · exact le_trans (Nat.le_succ i) (ih (i + 1))
      · exact le_refl i
    · exact le_refl i

theorem scanUp_scanned (vs : List Nat) (p : Nat) :
    ∀ fuel i t, i ≤ t → t < scanUp vs p fuel i → vs.getD t 0 < p := by
  intro fuel
  induction fuel with
  | zero => intro i t h1 h2; simp [scanUp] at h2; omega
  | succ f ih =>
    intro i t h1 h2
    simp only [scanUp] at h2
    by_cases hl : i < vs.length
    · simp only [hl, if_true] at h2
      by_cases hv : vs.getD i 0 < p
      · simp only [hv, if_true] at h2
        rcases Nat.eq_or_lt_of_le h1 with h | h
        · exact h ▸ hv
        · exact ih (i + 1) t h h2
      · simp only [hv, if_false] at h2; omega
    · simp only [hl, if_false] at h2; omega

theorem scanUp_stop (vs : List Nat) (p : Nat) :
    ∀ fuel i, vs.length ≤ fuel + i →
      vs.length ≤ scanUp vs p fuel i ∨
      (scanUp vs p fuel i < vs.length ∧ p ≤ vs.getD (scanUp vs p fuel i) 0) := by
  intro fuel
  induction fuel with
  | zero => intro i h; simp [scanUp]; omega
  | succ f ih =>
    intro i h
    simp only [scanUp]
    by_cases hl : i < vs.length
    · simp only [hl, if_true]
      by_cases hv : vs.getD i 0 < p
      · simp only [hv, if_true]
        exact ih (i + 1) (by omega)
      · simp only [hv, if_false]
        exact Or.inr ⟨hl, by omega⟩
    · simp only [hl, if_false]; omega

theorem scanUp_le_stopper (vs : List Nat) (p : Nat) :
    ∀ fuel i m, i ≤ m → ¬(vs.getD m 0 < p) → scanUp vs p fuel i ≤ m := by
  intro fuel
  induction fuel with
  | zero => intro i m h1 _; simpa [scanUp] using h1
  | succ f ih =>
    intro i m h1 h2
    simp only [scanUp]
    split
    · split
      · rename_i hv
        have : i ≠ m := fun he => h2 (he ▸ hv)
        exact ih (i + 1) m (by omega) h2
      · exact h1
    · exact h1

theorem scanDown_le (vs : List Nat) (p : Nat) :
    ∀ fuel j, scanDown vs p fuel j ≤ j := by
  intro fuel
  induction fuel with
  | zero => intro j; simp [scanDown]
  | succ f ih =>
    intro j
    simp only [scanDown]
    split
    · split
      · omega
      · exact le_trans (ih (j - 1)) (by omega)
    · exact le_refl j

theorem scanDown_scanned (vs : List Nat) (p : Nat) :
    ∀ fuel j t, scanDown vs p fuel j < t → t ≤ j → p < vs.getD t 0 := by
  intro fuel
  induction fuel with
  | zero => intro j t h1 h2; simp [scanDown] at h1; omega
  | succ f ih =>
    intro j t h1 h2
    simp only [scanDown] at h1
    by_cases hv : p < vs.getD j 0
    · simp only [hv, if_true] at h1
      by_cases hj : j = 0
      · subst hj; omega
      · simp only [hj, if_false] at h1
        rcases Nat.eq_or_lt_of_le h2 with h | h
        · exact h ▸ hv
        · exact ih (j - 1) t h1 (by omega)
    · simp only [hv, if_false] at h1; omega

theorem scanDown_ge_stopper (vs : List Nat) (p : Nat) :
    ∀ fuel j m, m ≤ j → vs.getD m 0 ≤ p → m ≤ scanDown vs p fuel j := by
  intro fuel
  induction fuel with
  | zero => intro j m h1 _; simpa [scanDown] using h1
  | succ f ih =>
    intro j m h1 h2
    simp only [scanDown]
    by_cases hv : p < vs.getD j 0
    · simp only [hv, if_true]
      have hne : m ≠ j := by
        intro he; subst he; omega
      by_cases hj : j = 0
      · omega
      · simp only [hj, if_false]
        exact ih (j - 1) m (by omega) h2
    · simp only [hv, if_false]; exact h1

theorem scanDown_stop (vs : List Nat) (p : Nat) :
    ∀ fuel j, j < fuel →
      vs.getD (scanDown vs p fuel j) 0 ≤ p ∨
      (scanDown vs p fuel j = 0 ∧ p < vs.getD 0 0) := by
  intro fuel
  induction fuel with
  | zero => intro j h; omega
  | succ f ih =>
    intro j h
    simp only [scanDown]
    by_cases hv : p < vs.getD j 0
    · simp only [hv, if_true]
      by_cases hj : j = 0
      · subst hj
        rw [if_pos rfl]
        exact Or.inr ⟨rfl, hv⟩
      · simp only [hj, if_false]
        exact ih (j - 1) (by omega)
    · simp only [hv, if_false]
      exact Or.inl (by omega)

end Flatbush

namespace Flatbush

/-! ### List helpers: getD over set, swap permutations, zip -/

theorem getD_set_same {α : Type} (l : List α) (i : Nat) (a d : α) (h : i < l.length) :
    (l.set i a).getD i d = a := by
  simp [List.getD_eq_getElem?_getD, List.getElem?_set_self', List.getElem?_eq_getElem h]

theorem getD_set_other {α : Type} (l : List α) (i t : Nat) (a d : α) (h : i ≠ t) :
    (l.set i a).getD t d = l.getD t d := by
  simp [List.getD_eq_getElem?_getD, List.getElem?_set_ne h]

theorem getD_lt_length {α : Type} (l : List α) (t : Nat) (d : α) (h : t < l.length) :
    l.getD t d = l.get ⟨t, h⟩ := by
  simp [List.getD_eq_getElem?_getD, List.getElem?_eq_getElem h]

theorem cons_set_perm {α : Type} (d : α) :
    ∀ (t : List α) (m : Nat) (a : α), m < t.length →
      List.Perm (t.getD m d :: t.set m a) (a :: t) := by
  intro t
  induction t with
  | nil => intro m a h; simp at h
  | cons b t2 ih =>
    intro m a h
    cases m with
    | zero =>
      simp only [List.getD_cons_zero, List.set_cons_zero]
      exact List.Perm.swap a b t2
    | succ m2 =>
      simp only [List.getD_cons_succ, List.set_cons_succ]
      exact ((List.Perm.swap b (t2.getD m2 d) (t2.set m2 a)).trans
        (List.Perm.cons b (ih m2 a (by simpa using h)))).trans
        (List.Perm.swap a b t2)

theorem set_set_perm {α : Type} (d : α) :
    ∀ (l : List α) (i j : Nat), i < l.length → j < l.length →
      List.Perm ((l.set i (l.getD j d)).set j (l.getD i d)) l := by
  intro l
  induction l with
  | nil => intro i j h _; simp at h
  | cons a t ih =>
    intro i j hi hj
    cases i with
    | zero =>
      cases j with
      | zero => simp
      | succ m =>
        simp only [List.getD_cons_zero, List.getD_cons_succ, List.set_cons_zero,
          List.set_cons_succ]
        exact cons_set_perm d t m a (by simpa using hj)
    | succ n =>
      cases j with
      | zero =>
        simp only [List.getD_cons_zero, List.getD_cons_succ, List.set_cons_zero,
          List.set_cons_succ]
        exact cons_set_perm d t n a (by simpa using hi)
      | succ m =>
        simp only [List.getD_cons_succ, List.set_cons_succ]
        exact List.Perm.cons a (ih n m (by simpa using hi) (by simpa using hj))

theorem zip_set {α β : Type} :
    ∀ (vs : List α) (bs : List β) (i : Nat) (a : α) (b : β),
      (vs.set i a).zip (bs.set i b) = (vs.zip bs).set i (a, b) := by
  intro vs
  induction vs with
  | nil => intro bs i a b; simp
  | cons v vt ih =>
    intro bs i a b
    cases bs with
    | nil => simp
    | cons w bt =>
      cases i with
      | zero => simp
      | succ n => simp [ih bt n a b]

theorem getD_zip {α β : Type} :
    ∀ (vs : List α) (bs : List β) (j : Nat) (da : α) (db : β),
      j < vs.length → j < bs.length →
      (vs.zip bs).getD j (da, db) = (vs.getD j da, bs.getD j db) := by
  intro vs
  induction vs with
  | nil => intro bs j da db h _; simp at h
  | cons v vt ih =>
    intro bs j da db h1 h2
    cases bs with
    | nil => simp at h2
    | cons w bt =>
      cases j with
      | zero => simp
      | succ n => simpa using ih bt n da db (by simpa using h1) (by simpa using h2)

/-- The zip of the two arrays after a `swapBoth` is a permutation of the
zip before. -/
theorem swapBoth_zip_perm (vs : List Nat) (bs : List Box) (i j : Nat)
    (hi : i < vs.length) (hj : j < vs.length) (hb : bs.length = vs.length) :
    List.Perm ((swapBoth vs bs i j).1.zip (swapBoth vs bs i j).2) (vs.zip bs) := by
  have hbi : i < bs.length := by omega
  have hbj : j < bs.length := by omega
  have hz : (swapBoth vs bs i j).1.zip (swapBoth vs bs i j).2 =
      ((vs.zip bs).set i ((vs.zip bs).getD j (0, invertedBox))).set j
        ((vs.zip bs).getD i (0, invertedBox)) := by
    simp only [swapBoth, zip_set, getD_zip vs bs j 0 invertedBox hj hbj,
      getD_zip vs bs i 0 invertedBox hi hbi]
  rw [hz]
  exact set_set_perm (0, invertedBox) (vs.zip bs) i j
    (by simp [List.length_zip]; omega) (by simp [List.length_zip]; omega)

end Flatbush

namespace Flatbush

theorem swapBoth_lengths (vs : List Nat) (bs : List Box) (i j : Nat) :
    (swapBoth vs bs i j).1.length = vs.length ∧
    (swapBoth vs bs i j).2.length = bs.length := by
  simp [swapBoth]

/-- Full invariant lemma for the Hoare partition loop of
`sortValuesAndBoxes`.  `p` is the pivot value, the partitioned range is
`[left, right]`, `(i, j)` are the next scan start positions. -/
theorem partitionLoop_go (p left right : Nat) (hlr : left < right) :
    ∀ fuel (vs : List Nat) (bs : List Box) (i j : Nat),
      bs.length = vs.length →
      right < vs.length →
      left ≤ i → j ≤ right →
      (∃ mi, i ≤ mi ∧ mi ≤ right ∧ p ≤ vs.getD mi 0) →
      (∃ mj, left ≤ mj ∧ mj ≤ j ∧ vs.getD mj 0 ≤ p) →
      (∀ t, left ≤ t → t < i → vs.getD t 0 ≤ p) →
      (∀ t, j < t → t ≤ right → p ≤ vs.getD t 0) →
      ((i = left ∧ j = right ∧ vs.getD ((left + right) / 2) 0 = p) ∨ j < right) →
      j - i + 2 ≤ fuel →
      (left ≤ (partitionLoop p fuel vs bs i j).2.2 ∧
        (partitionLoop p fuel vs bs i j).2.2 < right) ∧
      ((partitionLoop p fuel vs bs i j).1.length = vs.length ∧
        (partitionLoop p fuel vs bs i j).2.1.length = bs.length) ∧
      List.Perm ((partitionLoop p fuel vs bs i j).1.zip (partitionLoop p fuel vs bs i j).2.1)
        (vs.zip bs) ∧
      (∀ t, t < left ∨ right < t →
        (partitionLoop p fuel vs bs i j).1.getD t 0 = vs.getD t 0 ∧
        (partitionLoop p fuel vs bs i j).2.1.getD t invertedBox = bs.getD t invertedBox) ∧
      (∀ t, left ≤ t → t ≤ (partitionLoop p fuel vs bs i j).2.2 →
        (partitionLoop p fuel vs bs i j).1.getD t 0 ≤ p) ∧
      (∀ t, (partitionLoop p fuel vs bs i j).2.2 < t → t ≤ right →
        p ≤ (partitionLoop p fuel vs bs i j).1.getD t 0) ∧
      (∀ t, left ≤ t → t ≤ right → ∃ u, left ≤ u ∧ u ≤ right ∧
        (partitionLoop p fuel vs bs i j).1.getD t 0 = vs.getD u 0) := by
  intro fuel
  induction fuel with
  | zero =>
    intro vs bs i j _ _ _ _ _ _ _ _ _ hfuel
    omega
  | succ f ih =>
    intro vs bs i j hb hrl hli hjr hmi hmj hlow hhigh hfirst hfuel
    obtain ⟨mi, hmi1, hmi2, hmi3⟩ := hmi
    obtain ⟨mj, hmj1, hmj2, hmj3⟩ := hmj
    -- the two scans
    set i2 := scanUp vs p (vs.length + 1) i with hi2def
    set j2 := scanDown vs p (j + 1) j with hj2def
    have hi2ge : i ≤ i2 := scanUp_ge vs p _ i
    have hi2le : i2 ≤ mi := scanUp_le_stopper vs p _ i mi hmi1 (by omega)
    have hi2r : i2 ≤ right := le_trans hi2le hmi2
    have hi2len : i2 < vs.length := by omega
    have hi2v : p ≤ vs.getD i2 0 := by
      rcases scanUp_stop vs p (vs.length + 1) i (by omega) with h | h
      · omega
      · exact h.2
    have hj2le : j2 ≤ j := scanDown_le vs p _ j
    have hj2ge : mj ≤ j2 := scanDown_ge_stopper vs p _ j mj hmj2 hmj3
    have hj2l : left ≤ j2 := le_trans hmj1 hj2ge
    have hj2len : j2 < vs.length := by omega
    have hj2v : vs.getD j2 0 ≤ p := by
      rcases scanDown_stop vs p (j + 1) j (by omega) with h | h
      · exact h
      · exfalso
        have : mj = 0 := by omega
        subst this
        omega
    have hup : ∀ t, i ≤ t → t < i2 → vs.getD t 0 < p :=
      fun t h1 h2 => scanUp_scanned vs p _ i t h1 h2
    have hdown : ∀ t, j2 < t → t ≤ j → p < vs.getD t 0 :=
      fun t h1 h2 => scanDown_scanned vs p _ j t h1 h2
    by_cases hbrk : j2 ≤ i2
    · -- break: return (vs, bs, j2)
      have heq : partitionLoop p (f + 1) vs bs i j = (vs, bs, j2) := by
        simp only [partitionLoop]
        rw [← hi2def, ← hj2def, if_pos hbrk]
      rw [heq]
      dsimp only
      have hj2r : j2 < right := by
        rcases hfirst with ⟨h1, h2, h3⟩ | h
        · -- first iteration: both scans meet at the middle
          have hmidl : left ≤ (left + right) / 2 := by omega
          have hmidr : (left + right) / 2 ≤ right := by omega
          have hi2mid : i2 ≤ (left + right) / 2 :=
            scanUp_le_stopper vs p _ i _ (by omega) (by omega)
          have hj2mid : (left + right) / 2 ≤ j2 :=
            scanDown_ge_stopper vs p _ j _ (by omega) (by omega)
          omega
        · omega
      refine ⟨⟨hj2l, hj2r⟩, ⟨rfl, rfl⟩, List.Perm.refl _, fun t _ => ⟨rfl, rfl⟩, ?_, ?_, ?_⟩
      · intro t htl htr
        by_cases hti : t < i
        · exact hlow t htl hti
        · by_cases hti2 : t < i2
          · exact le_of_lt (hup t (by omega) hti2)
          · have : t = j2 := by omega
            subst this
            exact hj2v
      · intro t ht1 ht2
        by_cases htj : t ≤ j
        · exact le_of_lt (hdown t ht1 htj)
        · exact hhigh t (by omega) ht2
      · intro t ht1 ht2
        exact ⟨t, ht1, ht2, rfl⟩
    · -- swap branch
      push_neg at hbrk
      have hij : i2 < j2 := hbrk
      set sw := swapBoth vs bs i2 j2 with hswdef
      have hswl : sw.1.length = vs.length ∧ sw.2.length = bs.length :=
        swapBoth_lengths vs bs i2 j2
      have heq : partitionLoop p (f + 1) vs bs i j = partitionLoop p f sw.1 sw.2 (i2 + 1) (j2 - 1) := by
        simp only [partitionLoop]
        rw [← hi2def, ← hj2def, if_neg (by omega)]
      -- getD facts for the swapped array
      have hvi2 : sw.1.getD i2 0 = vs.getD j2 0 := by
        rw [hswdef]
        simp only [swapBoth]
        rw [getD_set_other _ j2 i2 _ _ (by omega), getD_set_same _ i2 _ _ (by omega)]
      have hvj2 : sw.1.getD j2 0 = vs.getD i2 0 := by
        rw [hswdef]
        simp only [swapBoth]
        rw [getD_set_same _ j2 _ _ (by simp; omega)]
      have hvoth : ∀ t, t ≠ i2 → t ≠ j2 → sw.1.getD t 0 = vs.getD t 0 := by
        intro t h1 h2
        rw [hswdef]
        simp only [swapBoth]
        rw [getD_set_other _ j2 t _ _ (fun h => h2 h.symm),
          getD_set_other _ i2 t _ _ (fun h => h1 h.symm)]
      have hboth : ∀ t, t ≠ i2 → t ≠ j2 →
          sw.2.getD t invertedBox = bs.getD t invertedBox := by
        intro t h1 h2
        rw [hswdef]
        simp only [swapBoth]
        rw [getD_set_other _ j2 t _ _ (fun h => h2 h.symm),
          getD_set_other _ i2 t _ _ (fun h => h1 h.symm)]
      have ihres := ih sw.1 sw.2 (i2 + 1) (j2 - 1)
        (by omega)
        (by omega)
        (by omega)
        (by omega)
        ⟨j2, by omega, by omega, by rw [hvj2]; exact hi2v⟩
        ⟨i2, by omega, by omega, by rw [hvi2]; exact hj2v⟩
        (by
          intro t htl hti
          by_cases h1 : t = i2
          · subst h1; rw [hvi2]; exact hj2v
          · rw [hvoth t h1 (by omega)]
            by_cases h2 : t < i
            · exact hlow t htl h2
            · exact le_of_lt (hup t (by omega) (by omega)))
        (by
          intro t ht1 ht2
          by_cases h1 : t = j2
          · subst h1; rw [hvj2]; exact hi2v
          · rw [hvoth t (by omega) h1]
            by_cases h2 : t ≤ j
            · exact le_of_lt (hdown t (by omega) h2)
            · exact hhigh t (by omega) ht2)
        (Or.inr (by omega))
        (by omega)
      rw [heq]
      obtain ⟨ih1, ih2, ih3, ih4, ih5, ih6, ih7⟩ := ihres
      refine ⟨ih1, ⟨by omega, by omega⟩, ?_, ?_, ih5, ih6, ?_⟩
      · exact ih3.trans (swapBoth_zip_perm vs bs i2 j2 hi2len hj2len hb)
      · intro t ht
        have h1 : t ≠ i2 := by omega
        have h2 : t ≠ j2 := by omega
        obtain ⟨e1, e2⟩ := ih4 t ht
        exact ⟨by rw [e1, hvoth t h1 h2], by rw [e2, hboth t h1 h2]⟩
      · intro t ht1 ht2
        obtain ⟨u, hu1, hu2, hu3⟩ := ih7 t ht1 ht2
        by_cases h1 : u = i2
        · subst h1
          exact ⟨j2, by omega, by omega, by rw [hu3, hvi2]⟩
        · by_cases h2 : u = j2
          · subst h2
            exact ⟨i2, by omega, by omega, by rw [hu3, hvj2]⟩
          · exact ⟨u, hu1, hu2, by rw [hu3, hvoth u h1 h2]⟩

end Flatbush

namespace Flatbush

/-- Full specification of the recursive dual-key quicksort on the range
`[left, right]`: lengths preserved, the zip of the two arrays is
permuted, positions outside the range untouched, the range is sorted,
and every range value originates in the range. -/
theorem sortValuesAndBoxes_go :
    ∀ fuel (vs : List Nat) (bs : List Box) (left right : Nat),
      bs.length = vs.length →
      right < vs.length →
      right + 1 - left ≤ fuel →
      ((sortValuesAndBoxes fuel vs bs left right).1.length = vs.length ∧
        (sortValuesAndBoxes fuel vs bs left right).2.length = bs.length) ∧
      List.Perm ((sortValuesAndBoxes fuel vs bs left right).1.zip
        (sortValuesAndBoxes fuel vs bs left right).2) (vs.zip bs) ∧
      (∀ t, t < left ∨ right < t →
        (sortValuesAndBoxes fuel vs bs left right).1.getD t 0 = vs.getD t 0 ∧
        (sortValuesAndBoxes fuel vs bs left right).2.getD t invertedBox = bs.getD t invertedBox) ∧
      (∀ t u, left ≤ t → t ≤ u → u ≤ right →
        (sortValuesAndBoxes fuel vs bs left right).1.getD t 0 ≤
        (sortValuesAndBoxes fuel vs bs left right).1.getD u 0) ∧
      (∀ t, left ≤ t → t ≤ right → ∃ u, left ≤ u ∧ u ≤ right ∧
        (sortValuesAndBoxes fuel vs bs left right).1.getD t 0 = vs.getD u 0) := by
  intro fuel
  induction fuel with
  | zero =>
    intro vs bs left right hb hr hfuel
    have heq : sortValuesAndBoxes 0 vs bs left right = (vs, bs) := rfl
    rw [heq]
    dsimp only
    refine ⟨⟨rfl, rfl⟩, List.Perm.refl _, fun t _ => ⟨rfl, rfl⟩, ?_, ?_⟩
    · intro t u h1 h2 h3; omega
    · intro t ht1 ht2; exact ⟨t, ht1, ht2, rfl⟩
  | succ f ih =>
    intro vs bs left right hb hr hfuel
    by_cases hrl : right ≤ left
    · have heq : sortValuesAndBoxes (f + 1) vs bs left right = (vs, bs) := by
        simp only [sortValuesAndBoxes]
        rw [if_pos hrl]
      rw [heq]
      refine ⟨⟨rfl, rfl⟩, List.Perm.refl _, fun t _ => ⟨rfl, rfl⟩, ?_, ?_⟩
      · intro t u h1 h2 h3
        have : t = u := by omega
        subst this
        exact le_refl _
      · intro t ht1 ht2; exact ⟨t, ht1, ht2, rfl⟩
    · push_neg at hrl
      set pivot := vs.getD ((left + right) / 2) 0 with hpivdef
      set pr := partitionLoop pivot (right + 2 - left) vs bs left right with hprdef
      have prspec := partitionLoop_go pivot left right hrl (right + 2 - left) vs bs left right
        hb hr (le_refl left) (le_refl right)
        ⟨(left + right) / 2, by omega, by omega, le_of_eq hpivdef⟩
        ⟨(left + right) / 2, by omega, by omega, le_of_eq hpivdef.symm⟩
        (by intro t h1 h2; omega)
        (by intro t h1 h2; omega)
        (Or.inl ⟨rfl, rfl, hpivdef.symm⟩)
        (by omega)
      rw [← hprdef] at prspec
      obtain ⟨⟨prj1, prj2⟩, ⟨prl1, prl2⟩, prperm, prframe, prlow, prhigh, prsrc⟩ := prspec
      set j := pr.2.2 with hjdef
      set r2 := sortValuesAndBoxes f pr.1 pr.2.1 left j with hr2def
      have ih2 := ih pr.1 pr.2.1 left j (by omega) (by omega) (by omega)
      rw [← hr2def] at ih2
      obtain ⟨⟨r2l1, r2l2⟩, r2perm, r2frame, r2sort, r2src⟩ := ih2
      have ih3 := ih r2.1 r2.2 (j + 1) right (by omega) (by omega) (by omega)
      obtain ⟨⟨r3l1, r3l2⟩, r3perm, r3frame, r3sort, r3src⟩ := ih3
      have heq : sortValuesAndBoxes (f + 1) vs bs left right =
          sortValuesAndBoxes f r2.1 r2.2 (j + 1) right := by
        simp only [sortValuesAndBoxes]
        rw [if_neg (by omega)]
      rw [heq]
      set r3 := sortValuesAndBoxes f r2.1 r2.2 (j + 1) right with hr3def
      refine ⟨⟨by omega, by omega⟩, ?_, ?_, ?_, ?_⟩
      · exact (r3perm.trans r2perm).trans prperm
      · intro t ht
        obtain ⟨e1, e2⟩ := r3frame t (by omega)
        obtain ⟨e3, e4⟩ := r2frame t (by omega)
        obtain ⟨e5, e6⟩ := prframe t ht
        exact ⟨by rw [e1, e3, e5], by rw [e2, e4, e6]⟩
      · -- sortedness on [left, right]
        intro t u ht1 htu hu2
        by_cases huj : u ≤ j
        · have et : r3.1.getD t 0 = r2.1.getD t 0 := (r3frame t (by omega)).1
          have eu : r3.1.getD u 0 = r2.1.getD u 0 := (r3frame u (by omega)).1
          rw [et, eu]
          exact r2sort t u ht1 htu huj
        · by_cases htj : j + 1 ≤ t
          · exact r3sort t u htj htu hu2
          · -- t ≤ j < u: go through the pivot
            have et : r3.1.getD t 0 = r2.1.getD t 0 := (r3frame t (by omega)).1
            have htp : r3.1.getD t 0 ≤ pivot := by
              rw [et]
              obtain ⟨w, hw1, hw2, hw3⟩ := r2src t ht1 (by omega)
              rw [hw3]
              exact prlow w hw1 hw2
            have hup2 : pivot ≤ r3.1.getD u 0 := by
              obtain ⟨w, hw1, hw2, hw3⟩ := r3src u (by omega) hu2
              rw [hw3]
              have : r2.1.getD w 0 = pr.1.getD w 0 := (r2frame w (by omega)).1
              rw [this]
              exact prhigh w (by omega) hw2
            exact le_trans htp hup2
      · -- source of every range value
        intro t ht1 ht2
        by_cases htj : t ≤ j
        · have et : r3.1.getD t 0 = r2.1.getD t 0 := (r3frame t (by omega)).1
          obtain ⟨w, hw1, hw2, hw3⟩ := r2src t ht1 htj
          obtain ⟨u, hu1, hu2, hu3⟩ := prsrc w hw1 (by omega)
          exact ⟨u, hu1, hu2, by rw [et, hw3, hu3]⟩
        · obtain ⟨w, hw1, hw2, hw3⟩ := r3src t (by omega) ht2
          have : r2.1.getD w 0 = pr.1.getD w 0 := (r2frame w (by omega)).1
          obtain ⟨u, hu1, hu2, hu3⟩ := prsrc w (by omega) hw2
          exact ⟨u, hu1, hu2, by rw [hw3, this, hu3]⟩

end Flatbush

namespace Flatbush

/-- The quicksort result is independent of the fuel once the fuel covers
the range size: the recursion genuinely terminates within the canonical
fuel. -/
theorem sortValuesAndBoxes_fuel :
    ∀ f g (vs : List Nat) (bs : List Box) (left right : Nat),
      bs.length = vs.length → right < vs.length →
      right + 1 - left ≤ f → right + 1 - left ≤ g →
      sortValuesAndBoxes f vs bs left right = sortValuesAndBoxes g vs bs left right := by
  intro f
  induction f with
  | zero =>
    intro g vs bs left right hb hr hf hg
    have hrl : right ≤ left := by omega
    cases g with
    | zero => rfl
    | succ g2 =>
      have h1 : sortValuesAndBoxes 0 vs bs left right = (vs, bs) := rfl
      have h2 : sortValuesAndBoxes (g2 + 1) vs bs left right = (vs, bs) := by
        simp only [sortValuesAndBoxes]
        rw [if_pos hrl]
      rw [h1, h2]
  | succ f2 ih =>
    intro g vs bs left right hb hr hf hg
    cases g with
    | zero =>
      have hrl : right ≤ left := by omega
      have h1 : sortValuesAndBoxes (f2 + 1) vs bs left right = (vs, bs) := by
        simp only [sortValuesAndBoxes]
        rw [if_pos hrl]
      rw [h1]
      rfl
    | succ g2 =>
      by_cases hrl : right ≤ left
      · have h1 : sortValuesAndBoxes (f2 + 1) vs bs left right = (vs, bs) := by
          simp only [sortValuesAndBoxes]
          rw [if_pos hrl]
        have h2 : sortValuesAndBoxes (g2 + 1) vs bs left right = (vs, bs) := by
          simp only [sortValuesAndBoxes]
          rw [if_pos hrl]
        rw [h1, h2]
      · push_neg at hrl
        set pivot := vs.getD ((left + right) / 2) 0 with hpivdef
        set pr := partitionLoop pivot (right + 2 - left) vs bs left right with hprdef
        have prspec := partitionLoop_go pivot left right hrl (right + 2 - left) vs bs left right
          hb hr (le_refl left) (le_refl right)
          ⟨(left + right) / 2, by omega, by omega, le_of_eq hpivdef⟩
          ⟨(left + right) / 2, by omega, by omega, le_of_eq hpivdef.symm⟩
          (by intro t h1 h2; omega)
          (by intro t h1 h2; omega)
          (Or.inl ⟨rfl, rfl, hpivdef.symm⟩)
          (by omega)
        rw [← hprdef] at prspec
        obtain ⟨⟨prj1, prj2⟩, ⟨prl1, prl2⟩, _, _, _, _, _⟩ := prspec
        set j := pr.2.2 with hjdef
        have h1 : sortValuesAndBoxes (f2 + 1) vs bs left right =
            sortValuesAndBoxes f2
              (sortValuesAndBoxes f2 pr.1 pr.2.1 left j).1
              (sortValuesAndBoxes f2 pr.1 pr.2.1 left j).2 (j + 1) right := by
          simp only [sortValuesAndBoxes]
          rw [if_neg (by omega)]
        have h2 : sortValuesAndBoxes (g2 + 1) vs bs left right =
            sortValuesAndBoxes g2
              (sortValuesAndBoxes g2 pr.1 pr.2.1 left j).1
              (sortValuesAndBoxes g2 pr.1 pr.2.1 left j).2 (j + 1) right := by
          simp only [sortValuesAndBoxes]
          rw [if_neg (by omega)]
        have hinner : sortValuesAndBoxes f2 pr.1 pr.2.1 left j =
            sortValuesAndBoxes g2 pr.1 pr.2.1 left j :=
          ih g2 pr.1 pr.2.1 left j (by omega) (by omega) (by omega) (by omega)
        have hlen2 := sortValuesAndBoxes_go g2 pr.1 pr.2.1 left j (by omega) (by omega)
          (by omega)
        obtain ⟨⟨hl1, hl2⟩, _, _, _, _⟩ := hlen2
        rw [h1, h2, hinner]
        exact ih g2 _ _ (j + 1) right (by omega) (by omega) (by omega) (by omega)

/-- C3: the dual-key quicksort, called on the full range of two
equal-length nonempty arrays, terminates (its result is fuel-independent
beyond the canonical fuel), sorts the value array into ascending order,
and applies one and the same permutation to values and boxes: the zip of
the two arrays after sorting is a permutation of the zip before (hence
the multiset of (value, box) pairs is preserved). -/
theorem sortValuesAndBoxes_correct (values : List Nat) (boxes : List Box)
    (hlen : values.length = boxes.length) (hne : 1 ≤ values.length) :
    (sortValuesAndBoxes (values.length + 1) values boxes 0 (values.length - 1)).1.length
        = values.length ∧
    (sortValuesAndBoxes (values.length + 1) values boxes 0 (values.length - 1)).2.length
        = boxes.length ∧
    List.Sorted (· ≤ ·)
      (sortValuesAndBoxes (values.length + 1) values boxes 0 (values.length - 1)).1 ∧
    List.Perm
      ((sortValuesAndBoxes (values.length + 1) values boxes 0 (values.length - 1)).1.zip
        (sortValuesAndBoxes (values.length + 1) values boxes 0 (values.length - 1)).2)
      (values.zip boxes) ∧
    (∀ g, values.length + 1 ≤ g →
      sortValuesAndBoxes g values boxes 0 (values.length - 1) =
      sortValuesAndBoxes (values.length + 1) values boxes 0 (values.length - 1)) := by
  have hspec := sortValuesAndBoxes_go (values.length + 1) values boxes 0 (values.length - 1)
    hlen.symm (by omega) (by omega)
  obtain ⟨⟨hl1, hl2⟩, hperm, _, hsort, _⟩ := hspec
  refine ⟨hl1, hl2, ?_, hperm, ?_⟩
  · rw [List.Sorted, List.pairwise_iff_getElem]
    intro a b ha hb hab
    have h1 := hsort a b (by omega) (by omega) (by omega)
    rw [getD_lt_length _ a 0 ha, getD_lt_length _ b 0 hb] at h1
    simpa using h1
  · intro g hg
    exact sortValuesAndBoxes_fuel g (values.length + 1) values boxes 0 (values.length - 1)
      hlen.symm (by omega) (by omega) (by omega)

end Flatbush

namespace Flatbush

theorem sortValuesAndBoxes_correct_witness :
    ([3, 1, 2] : List Nat).length =
      ([⟨0, 0, 1, 1, 0⟩, ⟨2, 0, 3, 1, 1⟩, ⟨4, 0, 5, 1, 2⟩] : List Box).length ∧
    1 ≤ ([3, 1, 2] : List Nat).length ∧
    List.Sorted (· ≤ ·)
      (sortValuesAndBoxes (([3, 1, 2] : List Nat).length + 1) [3, 1, 2]
        [⟨0, 0, 1, 1, 0⟩, ⟨2, 0, 3, 1, 1⟩, ⟨4, 0, 5, 1, 2⟩] 0
        (([3, 1, 2] : List Nat).length - 1)).1 ∧
    List.Perm
      ((sortValuesAndBoxes (([3, 1, 2] : List Nat).length + 1) [3, 1, 2]
        [⟨0, 0, 1, 1, 0⟩, ⟨2, 0, 3, 1, 1⟩, ⟨4, 0, 5, 1, 2⟩] 0
        (([3, 1, 2] : List Nat).length - 1)).1.zip
       (sortValuesAndBoxes (([3, 1, 2] : List Nat).length + 1) [3, 1, 2]
        [⟨0, 0, 1, 1, 0⟩, ⟨2, 0, 3, 1, 1⟩, ⟨4, 0, 5, 1, 2⟩] 0
        (([3, 1, 2] : List Nat).length - 1)).2)
      (([3, 1, 2] : List Nat).zip [⟨0, 0, 1, 1, 0⟩, ⟨2, 0, 3, 1, 1⟩, ⟨4, 0, 5, 1, 2⟩]) :=
  ⟨by decide, by decide,
    (sortValuesAndBoxes_correct [3, 1, 2]
      [⟨0, 0, 1, 1, 0⟩, ⟨2, 0, 3, 1, 1⟩, ⟨4, 0, 5, 1, 2⟩] (by decide) (by decide)).2.2.1,
    (sortValuesAndBoxes_correct [3, 1, 2]
      [⟨0, 0, 1, 1, 0⟩, ⟨2, 0, 3, 1, 1⟩, ⟨4, 0, 5, 1, 2⟩] (by decide) (by decide)).2.2.2.1⟩

end Flatbush

namespace Flatbush

/-! ### Ceiling-division arithmetic -/

theorem ceilDiv_pos (ns n : Nat) (h : 1 ≤ ns) (h1 : 1 ≤ n) : 1 ≤ (n + ns - 1) / ns := by
  rw [Nat.le_div_iff_mul_le (by omega)]
  omega

theorem ceilDiv_lower (ns n : Nat) (h : 1 ≤ ns) : n ≤ ((n + ns - 1) / ns) * ns := by
  have h1 : (n + ns - 1) / ns < (n + ns - 1) / ns + 1 := by omega
  rw [Nat.div_lt_iff_lt_mul (by omega)] at h1
  have h2 : ((n + ns - 1) / ns + 1) * ns = ((n + ns - 1) / ns) * ns + ns := Nat.succ_mul _ _
  omega

theorem ceilDiv_upper (ns n : Nat) (h : 1 ≤ ns) (h1 : 1 ≤ n) :
    ((n + ns - 1) / ns - 1) * ns < n := by
  have hq := ceilDiv_pos ns n h h1
  have hm : ((n + ns - 1) / ns) * ns ≤ n + ns - 1 := Nat.div_mul_le_self _ _
  obtain ⟨q2, hq2⟩ : ∃ q2, (n + ns - 1) / ns = q2 + 1 := ⟨(n + ns - 1) / ns - 1, by omega⟩
  rw [hq2] at hm
  rw [hq2]
  have h2 : (q2 + 1) * ns = q2 * ns + ns := Nat.succ_mul _ _
  simp only [Nat.add_sub_cancel]
  omega

theorem ceilDiv_lt_self (ns n : Nat) (h : 2 ≤ ns) (h2 : 2 ≤ n) : (n + ns - 1) / ns < n := by
  rw [Nat.div_lt_iff_lt_mul (by omega)]
  obtain ⟨a, ha⟩ : ∃ a, n = a + 2 := ⟨n - 2, by omega⟩
  obtain ⟨b, hb⟩ : ∃ b, ns = b + 2 := ⟨ns - 2, by omega⟩
  subst ha hb
  have : (a + 2) * (b + 2) = a * b + 2 * a + 2 * b + 4 := by ring
  omega

/-- A window index is in range iff its start is inside the level. -/
theorem window_count_iff (ns d k : Nat) (h : 1 ≤ ns) (h1 : 1 ≤ d) :
    k < (d + ns - 1) / ns ↔ k * ns < d := by
  constructor
  · intro hk
    have := ceilDiv_upper ns d h h1
    have hm : k * ns ≤ ((d + ns - 1) / ns - 1) * ns :=
      Nat.mul_le_mul_right ns (by omega)
    omega
  · intro hk
    have := ceilDiv_lower ns d h
    by_contra hcon
    push_neg at hcon
    have : ((d + ns - 1) / ns) * ns ≤ k * ns := Nat.mul_le_mul_right ns hcon
    omega

/-! ### Structure of `levelParents` -/

theorem levelParentsGo_length (ns : Nat) (B : List Box) (e : Nat) (h : 1 ≤ ns) :
    ∀ fuel pos, e - pos < fuel → pos ≤ e →
      (levelParentsGo ns B e fuel pos).length = (e - pos + ns - 1) / ns := by
  intro fuel
  induction fuel with
  | zero => intro pos h1 h2; omega
  | succ f ih =>
    intro pos h1 h2
    simp only [levelParentsGo]
    by_cases hpe : pos < e
    · rw [if_pos hpe]
      simp only [List.length_cons]
      by_cases hcap : pos + ns < e
      · have hm : min (pos + ns) e = pos + ns := by omega
        rw [hm, ih (pos + ns) (by omega) (by omega)]
        have h3 : e - pos - 1 + ns = e - pos + ns - 1 := by omega
        have h4 : e - (pos + ns) + ns - 1 + ns = e - pos + ns - 1 := by omega
        rw [← h4, Nat.add_div_right _ (by omega)]
      · have hm : min (pos + ns) e = e := by omega
        rw [hm, ih e (by omega) (by omega)]
        have h3 : (e - e + ns - 1) / ns = 0 := by
          apply Nat.div_eq_of_lt
          omega
        rw [h3]
        have hd1 : 1 ≤ e - pos := by omega
        have hd2 : e - pos ≤ ns := by omega
        have hlt : e - pos + ns - 1 < 2 * ns := by omega
        have hge := ceilDiv_pos ns (e - pos) h hd1
        have hup : (e - pos + ns - 1) / ns < 2 := by
          rw [Nat.div_lt_iff_lt_mul (by omega)]
          omega
        omega
    · rw [if_neg hpe]
      have : pos = e := by omega
      subst this
      simp only [List.length_nil]
      rw [Nat.div_eq_of_lt (by omega)]

theorem levelParentsGo_getD (ns : Nat) (B : List Box) (e : Nat) (h : 1 ≤ ns) :
    ∀ fuel pos k, e - pos < fuel → pos + k * ns < e →
      (levelParentsGo ns B e fuel pos).getD k invertedBox = parentNode ns B (pos + k * ns) e := by
  intro fuel
  induction fuel with
  | zero => intro pos k h1 h2; omega
  | succ f ih =>
    intro pos k h1 h2
    have hpe : pos < e := by omega
    simp only [levelParentsGo]
    rw [if_pos hpe]
    cases k with
    | zero => simp
    | succ k2 =>
      simp only [List.getD_cons_succ]
      by_cases hcap : pos + ns < e
      · have hm : min (pos + ns) e = pos + ns := by omega
        rw [hm]
        have hsucc : (k2 + 1) * ns = k2 * ns + ns := Nat.succ_mul _ _
        have h3 : pos + ns + k2 * ns = pos + (k2 + 1) * ns := by omega
        rw [ih (pos + ns) k2 (by omega) (by omega), h3]
      · exfalso
        have hsucc : (k2 + 1) * ns = k2 * ns + ns := Nat.succ_mul _ _
        omega

theorem levelParents_length (ns : Nat) (B : List Box) (pos e : Nat) (h : 1 ≤ ns)
    (h2 : pos ≤ e) :
    (levelParents ns B pos e).length = (e - pos + ns - 1) / ns :=
  levelParentsGo_length ns B e h _ pos (by omega) h2

theorem levelParents_getD (ns : Nat) (B : List Box) (pos e k : Nat) (h : 1 ≤ ns)
    (h2 : pos + k * ns < e) :
    (levelParents ns B pos e).getD k invertedBox = parentNode ns B (pos + k * ns) e :=
  levelParentsGo_getD ns B e h _ pos k (by omega) h2

/-! ### Congruence: parent nodes only read below the level end -/

theorem foldl_union_congr (X Y : List Box) :
    ∀ len s init, (∀ t, s ≤ t → t < s + len → boxAt X t = boxAt Y t) →
      (List.range' s len).foldl (fun nb p => unionStep nb (boxAt X p)) init =
      (List.range' s len).foldl (fun nb p => unionStep nb (boxAt Y p)) init := by
  intro len
  induction len with
  | zero => intro s init _; rfl
  | succ l ih =>
    intro s init hagree
    simp only [List.range'_succ, List.foldl_cons]
    rw [hagree s (le_refl s) (by omega)]
    exact ih (s + 1) _ (fun t h1 h2 => hagree t (by omega) (by omega))

theorem unionRange_congr (X Y : List Box) (len s : Nat)
    (hagree : ∀ t, s ≤ t → t < s + len → boxAt X t = boxAt Y t) :
    unionRange X s len = unionRange Y s len :=
  foldl_union_congr X Y len s _ hagree

theorem parentNode_congr (ns : Nat) (X Y : List Box) (w e : Nat)
    (hagree : ∀ t, t < e → boxAt X t = boxAt Y t) :
    parentNode ns X w e = parentNode ns Y w e := by
  unfold parentNode
  apply unionRange_congr
  intro t h1 h2
  apply hagree
  omega

end Flatbush

namespace Flatbush

/-! ### The level-bounds loop emits a `Chain` -/

theorem chain_ne_nil (ns n m : Nat) (rest : List Nat) (h : Chain ns n m rest) : rest ≠ [] := by
  cases h <;> simp

theorem blbGo_chain (ns : Nat) (hns : 2 ≤ ns) :
    ∀ fuel n m, 1 ≤ n → n ≤ fuel → Chain ns n m (buildLevelBoundsGo ns fuel n m) := by
  intro fuel
  induction fuel with
  | zero => intro n m h1 h2; omega
  | succ f ih =>
    intro n m h1 h2
    simp only [buildLevelBoundsGo]
    by_cases hle : (n + ns - 1) / ns ≤ 1
    · rw [if_pos hle]
      exact Chain.last n m hle
    · rw [if_neg hle]
      push_neg at hle
      have hn2 : 2 ≤ n := by
        by_contra hcon
        have hn1 : n = 1 := by omega
        subst hn1
        have he : 1 + ns - 1 = ns := by omega
        rw [he, Nat.div_self (by omega)] at hle
        omega
      have hlt : (n + ns - 1) / ns < n := ceilDiv_lt_self ns n hns hn2
      exact Chain.step n m _ hle (ih _ _ (by omega) (by omega))

/-! ### Packing a `Chain` of levels produces a well-formed tree -/

theorem packSegments_cons (ns : Nat) (e : Nat) (rest : List Nat) (B : List Box) (pos : Nat) :
    packSegments ns (e :: rest) B pos =
    packSegments ns rest (B ++ levelParents ns B pos e) e := rfl

theorem getD_append_left {α : Type} (l l2 : List α) (p : Nat) (d : α) (h : p < l.length) :
    (l ++ l2).getD p d = l.getD p d := by
  rw [List.getD_eq_getElem?_getD, List.getD_eq_getElem?_getD, List.getElem?_append_left h]

theorem getD_append_right {α : Type} (l l2 : List α) (k : Nat) (d : α) :
    (l ++ l2).getD (l.length + k) d = l2.getD k d := by
  simp only [List.getD_eq_getElem?_getD]
  rw [List.getElem?_append_right (by omega)]
  simp

theorem pack_go (ns : Nat) (hns : 2 ≤ ns) :
    ∀ (n m : Nat) (rest : List Nat), Chain ns n m rest →
    ∀ B : List Box, B.length = m → 1 ≤ n → n ≤ m →
      (packSegments ns (m :: rest.dropLast) B (m - n)).length = rest.getLastD 0 ∧
      (∀ p, p < m →
        boxAt (packSegments ns (m :: rest.dropLast) B (m - n)) p = boxAt B p) ∧
      TreeOK ns (packSegments ns (m :: rest.dropLast) B (m - n)) (m - n) m rest := by
  intro n m rest hchain
  induction hchain with
  | last n m hle =>
    intro B hB h1 hnm
    have hcount : (levelParents ns B (m - n) m).length = (n + ns - 1) / ns := by
      rw [levelParents_length ns B (m - n) m (by omega) (by omega)]
      have : m - (m - n) = n := by omega
      rw [this]
    have hone : (n + ns - 1) / ns = 1 := by
      have := ceilDiv_pos ns n (by omega) h1
      omega
    simp only [List.dropLast_single]
    rw [packSegments_cons]
    have heqB : packSegments ns [] (B ++ levelParents ns B (m - n) m) m =
        B ++ levelParents ns B (m - n) m := rfl
    rw [heqB]
    have hlen : (B ++ levelParents ns B (m - n) m).length = m + 1 := by
      simp only [List.length_append, hB, hcount, hone]
    have hpre : ∀ p, p < m → boxAt (B ++ levelParents ns B (m - n) m) p = boxAt B p := by
      intro p hp
      unfold boxAt
      exact getD_append_left B _ p invertedBox (by omega)
    refine ⟨by simp [hlen, hone], hpre, ?_⟩
    -- TreeOK (m - n) m [m + 1-ish]
    simp only [TreeOK, LayerOK]
    have hmn : m - (m - n) = n := by omega
    refine ⟨by omega, ⟨by rw [hmn], ?_⟩, by rw [hlen]; omega, by omega⟩
    intro k hk
    have hk0 : k = 0 := by omega
    subst hk0
    have hidx : boxAt (B ++ levelParents ns B (m - n) m) (m + 0) =
        (levelParents ns B (m - n) m).getD 0 invertedBox := by
      unfold boxAt
      have : m + 0 = B.length + 0 := by omega
      rw [this]
      exact getD_append_right B _ 0 invertedBox
    rw [hidx, levelParents_getD ns B (m - n) m 0 (by omega) (by omega)]
    simp only [Nat.zero_mul, Nat.add_zero]
    exact parentNode_congr ns B (B ++ levelParents ns B (m - n) m) (m - n) m
      (fun t ht => (hpre t ht).symm)
  | step n m rest2 hgt hch ih =>
    intro B hB h1 hnm
    set c := (n + ns - 1) / ns with hcdef
    set m2 := m + c with hm2def
    have hrest2 : rest2 ≠ [] := chain_ne_nil ns c m2 rest2 hch
    have hdrop : ((m2 :: rest2).dropLast : List Nat) = m2 :: rest2.dropLast := by
      cases rest2 with
      | nil => exact absurd rfl hrest2
      | cons a t => rfl
    rw [hdrop, packSegments_cons]
    set B2 := B ++ levelParents ns B (m - n) m with hB2def
    have hcount : (levelParents ns B (m - n) m).length = c := by
      rw [levelParents_length ns B (m - n) m (by omega) (by omega)]
      have : m - (m - n) = n := by omega
      rw [this, hcdef]
    have hlenB2 : B2.length = m2 := by
      simp only [hB2def, List.length_append, hB, hcount, hm2def]
    have hpre2 : ∀ p, p < m → boxAt B2 p = boxAt B p := by
      intro p hp
      unfold boxAt
      exact getD_append_left B _ p invertedBox (by omega)
    have hnews : ∀ k, k < c → boxAt B2 (m + k) = parentNode ns B ((m - n) + k * ns) m := by
      intro k hk
      have hidx : boxAt B2 (m + k) = (levelParents ns B (m - n) m).getD k invertedBox := by
        unfold boxAt
        rw [hB2def]
        have : m + k = B.length + k := by omega
        rw [this]
        exact getD_append_right B _ k invertedBox
      rw [hidx]
      apply levelParents_getD ns B (m - n) m k (by omega)
      have hmn : m - (m - n) = n := by omega
      have := (window_count_iff ns n k (by omega) h1).mp (by rw [← hcdef]; exact hk)
      omega
    have hm2n : m2 - c = m := by omega
    have ihres := ih B2 hlenB2 (by omega) (by omega)
    rw [hm2n] at ihres
    obtain ⟨ih1, ih2, ih3⟩ := ihres
    refine ⟨?_, ?_, ?_⟩
    · rw [ih1]
      cases rest2 with
      | nil => exact absurd rfl hrest2
      | cons a t => rfl
    · intro p hp
      rw [ih2 p (by omega)]
      exact hpre2 p hp
    · -- TreeOK (m - n) m (m2 :: rest2)
      simp only [TreeOK]
      set R := packSegments ns (m2 :: rest2.dropLast) B2 m with hRdef
      have hRpre : ∀ p, p < m2 → boxAt R p = boxAt B2 p := ih2
      refine ⟨by omega, ⟨?_, ?_⟩, ih3⟩
      · have hmn : m - (m - n) = n := by omega
        rw [hmn]
      · intro k hk
        have hkc : k < c := by omega
        rw [hRpre (m + k) (by omega), hnews k hkc]
        apply parentNode_congr
        intro t ht
        rw [hRpre t (by omega), hpre2 t ht]

end Flatbush

namespace Flatbush

/-! ### Extracting per-level facts from `TreeOK` -/

theorem treeOK_layer (ns : Nat) (B : List Box) :
    ∀ (ends : List Nat) (s e : Nat), TreeOK ns B s e ends →
      ∀ i, i < ends.length →
        LayerOK ns B ((s :: e :: ends).getD i 0) ((e :: ends).getD i 0) (ends.getD i 0) := by
  intro ends
  induction ends with
  | nil => intro s e _ i hi; simp at hi
  | cons e2 rest ih =>
    intro s e htree i hi
    obtain ⟨_, hlayer, htree2⟩ := htree
    cases i with
    | zero => simpa using hlayer
    | succ i2 =>
      simpa using ih e e2 htree2 i2 (by simpa using hi)

theorem treeOK_lt (ns : Nat) (B : List Box) :
    ∀ (ends : List Nat) (s e : Nat), TreeOK ns B s e ends →
      ∀ i, i ≤ ends.length →
        (s :: e :: ends).getD i 0 < (e :: ends).getD i 0 := by
  intro ends
  induction ends with
  | nil =>
    intro s e htree i hi
    obtain ⟨_, h2⟩ := htree
    have : i = 0 := by simpa using hi
    subst this
    simp
    omega
  | cons e2 rest ih =>
    intro s e htree i hi
    obtain ⟨hlt, _, htree2⟩ := htree
    cases i with
    | zero => simpa using hlt
    | succ i2 =>
      simpa using ih e e2 htree2 i2 (by simpa using hi)

theorem treeOK_root (ns : Nat) (B : List Box) :
    ∀ (ends : List Nat) (s e : Nat), TreeOK ns B s e ends →
      B.length = (e :: ends).getD ends.length 0 ∧
      (e :: ends).getD ends.length 0 = (s :: e :: ends).getD ends.length 0 + 1 := by
  intro ends
  induction ends with
  | nil =>
    intro s e htree
    obtain ⟨h1, h2⟩ := htree
    simp only [List.length_nil, List.getD_cons_zero]
    exact ⟨h1, h2⟩
  | cons e2 rest ih =>
    intro s e htree
    obtain ⟨_, _, htree2⟩ := htree
    simp only [List.length_cons, List.getD_cons_succ]
    exact ih e e2 htree2

/-! ### Facts derived from `WF` -/

theorem WF_layer (ns numItems : Nat) (LB : List Nat) (B : List Box)
    (hwf : WF ns numItems LB B) :
    ∀ lev, 1 ≤ lev → lev < LB.length →
      LayerOK ns B (startOf LB (lev - 1)) (LB.getD (lev - 1) 0) (LB.getD lev 0) := by
  obtain ⟨hns, hni, hlen, hhead, hblen, htree⟩ := hwf
  intro lev h1 h2
  obtain ⟨lb0, tail, rfl⟩ : ∃ lb0 tail, LB = lb0 :: tail := by
    cases LB with
    | nil => simp at hlen
    | cons a t => exact ⟨a, t, rfl⟩
  have hlb0 : numItems = lb0 := by simpa using hhead.symm
  subst hlb0
  have hext := treeOK_layer ns B tail 0 numItems htree (lev - 1)
    (by simp at h2 ⊢; omega)
  obtain ⟨i2, hi2⟩ : ∃ i2, lev = i2 + 1 := ⟨lev - 1, by omega⟩
  subst hi2
  simp only [Nat.add_sub_cancel] at hext ⊢
  -- identify the accessor forms
  have e1 : ((0 : Nat) :: numItems :: tail).getD i2 0 = startOf (numItems :: tail) i2 := by
    cases i2 with
    | zero => simp [startOf]
    | succ i3 => simp [startOf]
  have e2 : ((numItems : Nat) :: tail).getD i2 0 = (numItems :: tail).getD i2 0 := rfl
  have e3 : tail.getD i2 0 = (numItems :: tail).getD (i2 + 1) 0 := by simp
  rw [e1, e3] at hext
  exact hext

theorem WF_lt (ns numItems : Nat) (LB : List Nat) (B : List Box)
    (hwf : WF ns numItems LB B) :
    ∀ lev, lev < LB.length → startOf LB lev < LB.getD lev 0 := by
  obtain ⟨hns, hni, hlen, hhead, hblen, htree⟩ := hwf
  intro lev h2
  obtain ⟨lb0, tail, rfl⟩ : ∃ lb0 tail, LB = lb0 :: tail := by
    cases LB with
    | nil => simp at hlen
    | cons a t => exact ⟨a, t, rfl⟩
  have hlb0 : numItems = lb0 := by simpa using hhead.symm
  subst hlb0
  have hext := treeOK_lt ns B tail 0 numItems htree lev (by simp at h2 ⊢; omega)
  have e1 : ((0 : Nat) :: numItems :: tail).getD lev 0 = startOf (numItems :: tail) lev := by
    cases lev with
    | zero => simp [startOf]
    | succ i3 => simp [startOf]
  rw [e1] at hext
  exact hext

theorem WF_root (ns numItems : Nat) (LB : List Nat) (B : List Box)
    (hwf : WF ns numItems LB B) :
    LB.getD (LB.length - 1) 0 = startOf LB (LB.length - 1) + 1 := by
  obtain ⟨hns, hni, hlen, hhead, hblen, htree⟩ := hwf
  obtain ⟨lb0, tail, rfl⟩ : ∃ lb0 tail, LB = lb0 :: tail := by
    cases LB with
    | nil => simp at hlen
    | cons a t => exact ⟨a, t, rfl⟩
  have hlb0 : numItems = lb0 := by simpa using hhead.symm
  subst hlb0
  have hext := (treeOK_root ns B tail 0 numItems htree).2
  have hL : (numItems :: tail).length - 1 = tail.length := by simp
  rw [hL]
  have e1 : ((0 : Nat) :: numItems :: tail).getD tail.length 0 =
      startOf (numItems :: tail) tail.length := by
    have htl : 1 ≤ tail.length := by simp at hlen; omega
    cases hb : tail.length with
    | zero => omega
    | succ i3 => simp [startOf]
  rw [e1] at hext
  exact hext

theorem WF_mono_succ (ns numItems : Nat) (LB : List Nat) (B : List Box)
    (hwf : WF ns numItems LB B) :
    ∀ lev, 1 ≤ lev → lev < LB.length → LB.getD (lev - 1) 0 < LB.getD lev 0 := by
  intro lev h1 h2
  have := WF_lt ns numItems LB B hwf lev h2
  unfold startOf at this
  rw [if_neg (by omega)] at this
  exact this

theorem WF_mono (ns numItems : Nat) (LB : List Nat) (B : List Box)
    (hwf : WF ns numItems LB B) :
    ∀ i j, i ≤ j → j < LB.length → LB.getD i 0 ≤ LB.getD j 0 := by
  intro i j hij hj
  obtain ⟨d, hd⟩ : ∃ d, j = i + d := ⟨j - i, by omega⟩
  subst hd
  clear hij
  induction d with
  | zero => exact le_refl _
  | succ d2 ihd =>
    have h1 := ihd (by omega)
    have h2 := WF_mono_succ ns numItems LB B hwf (i + d2 + 1) (by omega) (by omega)
    simp only [Nat.add_sub_cancel] at h2
    have e : i + (d2 + 1) = i + d2 + 1 := rfl
    rw [e]
    omega

end Flatbush

namespace Flatbush

/-! ### Properties of the window union (`parentNode` / `unionRange`) -/

theorem foldl_union_index (B : List Box) :
    ∀ (ps : List Nat) (init : Box),
      (ps.foldl (fun nb p => unionStep nb (boxAt B p)) init).index = init.index := by
  intro ps
  induction ps with
  | nil => intro init; rfl
  | cons p rest ih => intro init; exact ih _

theorem parentNode_idx (ns : Nat) (B : List Box) (pos e : Nat) :
    (parentNode ns B pos e).index = (pos : Int) := by
  unfold parentNode unionRange
  rw [foldl_union_index]

theorem foldl_union_extends (B : List Box) :
    ∀ (ps : List Nat) (init : Box),
      (ps.foldl (fun nb p => unionStep nb (boxAt B p)) init).minX ≤ init.minX ∧
      (ps.foldl (fun nb p => unionStep nb (boxAt B p)) init).minY ≤ init.minY ∧
      init.maxX ≤ (ps.foldl (fun nb p => unionStep nb (boxAt B p)) init).maxX ∧
      init.maxY ≤ (ps.foldl (fun nb p => unionStep nb (boxAt B p)) init).maxY := by
  intro ps
  induction ps with
  | nil => intro init; exact ⟨le_refl _, le_refl _, le_refl _, le_refl _⟩
  | cons p rest ih =>
    intro init
    obtain ⟨h1, h2, h3, h4⟩ := ih (unionStep init (boxAt B p))
    simp only [List.foldl_cons]
    refine ⟨le_trans h1 ?_, le_trans h2 ?_, le_trans ?_ h3, le_trans ?_ h4⟩ <;>
      simp [unionStep, min_le_left, le_max_left]

theorem foldl_union_mem (B : List Box) :
    ∀ (ps : List Nat) (init : Box) (p : Nat), p ∈ ps →
      boxLE (boxAt B p) (ps.foldl (fun nb p2 => unionStep nb (boxAt B p2)) init) := by
  intro ps
  induction ps with
  | nil => intro init p h; simp at h
  | cons q rest ih =>
    intro init p h
    simp only [List.foldl_cons]
    rcases List.mem_cons.mp h with h1 | h1
    · subst h1
      obtain ⟨h1, h2, h3, h4⟩ := foldl_union_extends B rest (unionStep init (boxAt B p))
      refine ⟨le_trans h1 ?_, le_trans h2 ?_, le_trans ?_ h3, le_trans ?_ h4⟩ <;>
        simp [unionStep, min_le_right, le_max_right]
    · exact ih (unionStep init (boxAt B q)) p h1

theorem mem_range'_iff (s len m : Nat) : m ∈ List.range' s len ↔ s ≤ m ∧ m < s + len := by
  rw [List.mem_range']
  constructor
  · rintro ⟨i, hi, rfl⟩; omega
  · intro ⟨h1, h2⟩; exact ⟨m - s, by omega, by omega⟩

theorem parentNode_contains (ns : Nat) (B : List Box) (pos e c : Nat)
    (h1 : pos ≤ c) (h2 : c < min (pos + ns) e) :
    boxLE (boxAt B c) (parentNode ns B pos e) := by
  unfold parentNode unionRange
  apply foldl_union_mem
  rw [mem_range'_iff]
  omega

theorem foldl_union_cases (B : List Box) (f : Box → Int)
    (hstep : ∀ nb b, f (unionStep nb b) = f nb ∨ f (unionStep nb b) = f b) :
    ∀ (ps : List Nat) (init : Box),
      f (ps.foldl (fun nb p => unionStep nb (boxAt B p)) init) = f init ∨
      ∃ p ∈ ps, f (ps.foldl (fun nb p2 => unionStep nb (boxAt B p2)) init) = f (boxAt B p) := by
  intro ps
  induction ps with
  | nil => intro init; exact Or.inl rfl
  | cons q rest ih =>
    intro init
    simp only [List.foldl_cons]
    rcases ih (unionStep init (boxAt B q)) with h | ⟨p, hp, hval⟩
    · rcases hstep init (boxAt B q) with h2 | h2
      · exact Or.inl (by rw [h, h2])
      · exact Or.inr ⟨q, List.mem_cons_self q rest, by rw [h, h2]⟩
    · exact Or.inr ⟨p, List.mem_cons_of_mem q hp, hval⟩

theorem unionStep_minX_cases (nb b : Box) :
    (unionStep nb b).minX = nb.minX ∨ (unionStep nb b).minX = b.minX := min_choice _ _

theorem unionStep_minY_cases (nb b : Box) :
    (unionStep nb b).minY = nb.minY ∨ (unionStep nb b).minY = b.minY := min_choice _ _

theorem unionStep_maxX_cases (nb b : Box) :
    (unionStep nb b).maxX = nb.maxX ∨ (unionStep nb b).maxX = b.maxX := max_choice _ _

theorem unionStep_maxY_cases (nb b : Box) :
    (unionStep nb b).maxY = nb.maxY ∨ (unionStep nb b).maxY = b.maxY := max_choice _ _

/-! ### The intersection test -/

theorem hitTest_true_iff (qMinX qMinY qMaxX qMaxY : Int) (b : Box) :
    hitTest qMinX qMinY qMaxX qMaxY b = true ↔
    (b.maxX ≥ qMinX ∧ b.minX ≤ qMaxX ∧ b.maxY ≥ qMinY ∧ b.minY ≤ qMaxY) := by
  unfold hitTest
  split
  · rename_i h
    simp only [Bool.false_eq_true, false_iff]
    omega
  · rename_i h
    push_neg at h
    simp only [true_iff]
    omega

theorem hitTest_mono (qMinX qMinY qMaxX qMaxY : Int) (b c : Box) (hle : boxLE b c)
    (hb : hitTest qMinX qMinY qMaxX qMaxY b = true) :
    hitTest qMinX qMinY qMaxX qMaxY c = true := by
  rw [hitTest_true_iff] at hb ⊢
  obtain ⟨h1, h2, h3, h4⟩ := hle
  refine ⟨by omega, by omega, by omega, by omega⟩

end Flatbush

namespace Flatbush

/-! ### Small helpers for box containment and multiset sums -/

theorem boxLE_refl (b : Box) : boxLE b b := ⟨le_refl _, le_refl _, le_refl _, le_refl _⟩

theorem boxLE_trans (a b c : Box) (h1 : boxLE a b) (h2 : boxLE b c) : boxLE a c := by
  obtain ⟨x1, x2, x3, x4⟩ := h1
  obtain ⟨y1, y2, y3, y4⟩ := h2
  exact ⟨le_trans y1 x1, le_trans y2 x2, le_trans x3 y3, le_trans x4 y4⟩

theorem mem_list_sum {α : Type} (x : α) :
    ∀ (l : List (Multiset α)), x ∈ l.sum ↔ ∃ m ∈ l, x ∈ m := by
  intro l
  induction l with
  | nil => simp
  | cons m rest ih =>
    simp only [List.sum_cons, Multiset.mem_add, ih, List.mem_cons]
    constructor
    · rintro (h | ⟨m2, hm2, hx⟩)
      · exact ⟨m, Or.inl rfl, h⟩
      · exact ⟨m2, Or.inr hm2, hx⟩
    · rintro ⟨m2, (rfl | hm2), hx⟩
      · exact Or.inl hx
      · exact Or.inr ⟨m2, hm2, hx⟩

/-! ### Characterization of internal nodes and their child windows -/

theorem node_char (ns numItems : Nat) (LB : List Nat) (B : List Box)
    (hwf : WF ns numItems LB B) (lev : Nat) (h1 : 1 ≤ lev) (h2 : lev < LB.length)
    (p : Nat) (hp1 : LB.getD (lev - 1) 0 ≤ p) (hp2 : p < LB.getD lev 0) :
    boxAt B p = parentNode ns B
      (startOf LB (lev - 1) + (p - LB.getD (lev - 1) 0) * ns) (LB.getD (lev - 1) 0) := by
  obtain ⟨hcnt, hwin⟩ := WF_layer ns numItems LB B hwf lev h1 h2
  have := hwin (p - LB.getD (lev - 1) 0) (by omega)
  have he : LB.getD (lev - 1) 0 + (p - LB.getD (lev - 1) 0) = p := by omega
  rw [he] at this
  exact this

theorem child_window_lt (ns numItems : Nat) (LB : List Nat) (B : List Box)
    (hwf : WF ns numItems LB B) (lev : Nat) (h1 : 1 ≤ lev) (h2 : lev < LB.length)
    (p : Nat) (hp1 : LB.getD (lev - 1) 0 ≤ p) (hp2 : p < LB.getD lev 0) :
    startOf LB (lev - 1) + (p - LB.getD (lev - 1) 0) * ns < LB.getD (lev - 1) 0 := by
  have hns : 2 ≤ ns := hwf.1
  obtain ⟨hcnt, hwin⟩ := WF_layer ns numItems LB B hwf lev h1 h2
  have hsz : 1 ≤ LB.getD (lev - 1) 0 - startOf LB (lev - 1) := by
    have := WF_lt ns numItems LB B hwf (lev - 1) (by omega)
    omega
  have hk := (window_count_iff ns (LB.getD (lev - 1) 0 - startOf LB (lev - 1))
    (p - LB.getD (lev - 1) 0) (by omega) hsz).mp (by omega)
  omega

theorem child_valid (ns numItems : Nat) (LB : List Nat) (B : List Box)
    (hwf : WF ns numItems LB B) (lev : Nat) (h1 : 1 ≤ lev) (h2 : lev < LB.length)
    (p : Nat) (hp1 : LB.getD (lev - 1) 0 ≤ p) (hp2 : p < LB.getD lev 0) :
    ValidEntry ns LB (lev - 1)
      (startOf LB (lev - 1) + (p - LB.getD (lev - 1) 0) * ns) := by
  refine ⟨by omega, by omega,
    child_window_lt ns numItems LB B hwf lev h1 h2 p hp1 hp2, ?_⟩
  rw [Nat.add_sub_cancel_left]
  exact Nat.mul_mod_left _ _

theorem valid_leaf_iff (ns numItems : Nat) (LB : List Nat) (B : List Box)
    (hwf : WF ns numItems LB B) (lev w : Nat) (hv : ValidEntry ns LB lev w) :
    w < numItems ↔ lev = 0 := by
  obtain ⟨hns, hni, hlen, hhead, hblen, htree⟩ := hwf
  obtain ⟨hv1, hv2, hv3, hv4⟩ := hv
  constructor
  · intro hw
    by_contra hlev
    have hmono := WF_mono ns numItems LB B
      ⟨hns, hni, hlen, hhead, hblen, htree⟩ 0 (lev - 1) (by omega) (by omega)
    unfold startOf at hv2
    rw [if_neg hlev] at hv2
    omega
  · intro hlev
    subst hlev
    omega

end Flatbush

namespace Flatbush

/-! ### Containment of subtree leaves in their window nodes -/

theorem subLeaves_contain (ns numItems : Nat) (LB : List Nat) (B : List Box)
    (hwf : WF ns numItems LB B) :
    ∀ lev w, ValidEntry ns LB lev w →
      ∀ q2 ∈ subLeavesPos ns LB B lev w,
        ∃ c, w ≤ c ∧ c < min (w + ns) (LB.getD lev 0) ∧
          boxLE (boxAt B q2) (boxAt B c) := by
  intro lev
  induction lev with
  | zero =>
    intro w hv q2 hq2
    simp only [subLeavesPos, Multiset.mem_coe] at hq2
    rw [mem_range'_iff] at hq2
    exact ⟨q2, by omega, by omega, boxLE_refl _⟩
  | succ lv ih =>
    intro w hv q2 hq2
    simp only [subLeavesPos] at hq2
    rw [mem_list_sum] at hq2
    obtain ⟨m, hm, hq2m⟩ := hq2
    rw [List.mem_map] at hm
    obtain ⟨p, hp, rfl⟩ := hm
    rw [mem_range'_iff] at hp
    obtain ⟨hv1, hv2, hv3, hv4⟩ := hv
    -- p is an internal node of level lv+1
    have hply : LB.getD lv 0 ≤ p := by
      have : startOf LB (lv + 1) = LB.getD lv 0 := by
        unfold startOf
        rw [if_neg (by omega)]
        rfl
      omega
    have hpub : p < LB.getD (lv + 1) 0 := by omega
    have hchar := node_char ns numItems LB B hwf (lv + 1) (by omega) hv1 p
      (by simpa using hply) (by simpa using hpub)
    simp only [Nat.add_sub_cancel] at hchar
    have hidx : (boxAt B p).index.toNat =
        startOf LB lv + (p - LB.getD lv 0) * ns := by
      rw [hchar, parentNode_idx]
      exact Int.toNat_ofNat _
    have hcv := child_valid ns numItems LB B hwf (lv + 1) (by omega) hv1 p
      (by simpa using hply) (by simpa using hpub)
    simp only [Nat.add_sub_cancel] at hcv
    rw [hidx] at hq2m
    obtain ⟨c2, hc1, hc2, hc3⟩ := ih _ hcv q2 hq2m
    refine ⟨p, by omega, by omega, ?_⟩
    apply boxLE_trans _ _ _ hc3
    rw [hchar]
    exact parentNode_contains ns B _ _ c2 hc1 (by
      have := child_window_lt ns numItems LB B hwf (lv + 1) (by omega) hv1 p
        (by simpa using hply) (by simpa using hpub)
      simp only [Nat.add_sub_cancel] at this
      omega)

end Flatbush

namespace Flatbush

theorem filterMap_list_sum {α β : Type} (P : α → Prop) [DecidablePred P] (f : α → β) :
    ∀ l : List (Multiset α),
      (l.sum.filter P).map f = (l.map (fun m => (m.filter P).map f)).sum := by
  intro l
  induction l with
  | nil => simp
  | cons m rest ih =>
    simp only [List.sum_cons, Multiset.filter_add, Multiset.map_add, List.map_cons, ih]

/-- Pruning is sound: the hits emitted from a subtree are exactly the
overlap-passing leaves of that subtree (descending only through passing
internal nodes loses nothing, because a parent box contains every leaf
box below it). -/
theorem subHits_eq_filter (ns numItems : Nat) (LB : List Nat) (B : List Box)
    (qMinX qMinY qMaxX qMaxY : Int) (hwf : WF ns numItems LB B) :
    ∀ lev w, ValidEntry ns LB lev w →
      subHits ns LB B qMinX qMinY qMaxX qMaxY lev w =
      ((subLeavesPos ns LB B lev w).filter
        (fun q2 => hitTest qMinX qMinY qMaxX qMaxY (boxAt B q2) = true)).map
        (fun q2 => (boxAt B q2).index) := by
  intro lev
  induction lev with
  | zero =>
    intro w _
    simp only [subHits, subLeavesPos, Multiset.filter_coe, Multiset.map_coe]
    congr 1
    congr 1
    apply List.filter_congr
    intro p _
    simp
  | succ lv ih =>
    intro w hv
    simp only [subHits, subLeavesPos]
    rw [filterMap_list_sum, List.map_map]
    obtain ⟨hv1, hv2, hv3, hv4⟩ := hv
    have hgen : ∀ ps : List Nat,
        (∀ p ∈ ps, startOf LB (lv + 1) ≤ p ∧ p < LB.getD (lv + 1) 0) →
        (((ps.filter (fun p => hitTest qMinX qMinY qMaxX qMaxY (boxAt B p))).map
          (fun p => subHits ns LB B qMinX qMinY qMaxX qMaxY lv ((boxAt B p).index.toNat))).sum
          : Multiset Int) =
        ((ps.map ((fun m => (m.filter
            (fun q2 => hitTest qMinX qMinY qMaxX qMaxY (boxAt B q2) = true)).map
            (fun q2 => (boxAt B q2).index)) ∘
          (fun p => subLeavesPos ns LB B lv ((boxAt B p).index.toNat)))).sum) := by
      intro ps
      induction ps with
      | nil => intro _; simp
      | cons p rest ihps =>
        intro hmem
        obtain ⟨hpl, hpu⟩ := hmem p (List.mem_cons_self p rest)
        have hrest := ihps (fun p2 hp2 => hmem p2 (List.mem_cons_of_mem p hp2))
        have hply : LB.getD lv 0 ≤ p := by
          have : startOf LB (lv + 1) = LB.getD lv 0 := by
            unfold startOf
            rw [if_neg (by omega)]
            rfl
          omega
        have hchar := node_char ns numItems LB B hwf (lv + 1) (by omega) hv1 p
          (by simpa using hply) (by simpa using hpu)
        simp only [Nat.add_sub_cancel] at hchar
        have hidx : (boxAt B p).index.toNat =
            startOf LB lv + (p - LB.getD lv 0) * ns := by
          rw [hchar, parentNode_idx]
          exact Int.toNat_ofNat _
        have hcv := child_valid ns numItems LB B hwf (lv + 1) (by omega) hv1 p
          (by simpa using hply) (by simpa using hpu)
        simp only [Nat.add_sub_cancel] at hcv
        have hcv2 : ValidEntry ns LB lv ((boxAt B p).index.toNat) := by
          rw [hidx]
          exact hcv
        by_cases hhit : hitTest qMinX qMinY qMaxX qMaxY (boxAt B p) = true
        · rw [List.filter_cons_of_pos (by simpa using hhit)]
          simp only [List.map_cons, List.sum_cons, Function.comp]
          rw [hrest, ih _ hcv2]
        · rw [List.filter_cons_of_neg (by simpa using hhit)]
          simp only [List.map_cons, List.sum_cons, Function.comp]
          have hzero : ((subLeavesPos ns LB B lv ((boxAt B p).index.toNat)).filter
              (fun q2 => hitTest qMinX qMinY qMaxX qMaxY (boxAt B q2) = true)) = 0 := by
            rw [Multiset.filter_eq_nil]
            intro q2 hq2
            intro hcon
            apply hhit
            obtain ⟨c2, hc1, hc2, hc3⟩ :=
              subLeaves_contain ns numItems LB B hwf lv _ hcv2 q2 hq2
            rw [hidx] at hc1 hc2
            have hcp : boxLE (boxAt B c2) (boxAt B p) := by
              rw [hchar]
              apply parentNode_contains ns B _ _ c2 hc1
              have := child_window_lt ns numItems LB B hwf (lv + 1) (by omega) hv1 p
                (by simpa using hply) (by simpa using hpu)
              simp only [Nat.add_sub_cancel] at this
              omega
            exact hitTest_mono qMinX qMinY qMaxX qMaxY _ _
              (boxLE_trans _ _ _ hc3 hcp) hcon
          rw [hzero]
          simp only [Multiset.map_zero, zero_add]
          exact hrest
    have happ := hgen (List.range' w (min (w + ns) (LB.getD (lv + 1) 0) - w))
      (by
        intro p hp
        rw [mem_range'_iff] at hp
        exact ⟨by omega, by omega⟩)
    exact happ

end Flatbush

namespace Flatbush

/-! ### The scan of one window -/

theorem scanWindow_leaf (numItems : Nat) (B : List Box) (qMinX qMinY qMaxX qMaxY : Int)
    (w lev : Nat) (hleaf : w < numItems) :
    ∀ ps, scanWindow numItems B qMinX qMinY qMaxX qMaxY w lev ps =
      ((ps.filter (fun p => hitTest qMinX qMinY qMaxX qMaxY (boxAt B p))).map
        (fun p => (boxAt B p).index), []) := by
  intro ps
  induction ps with
  | nil => rfl
  | cons p rest ih =>
    simp only [scanWindow, ih]
    by_cases hrej : qMaxX < (boxAt B p).minX ∨ qMaxY < (boxAt B p).minY ∨
        qMinX > (boxAt B p).maxX ∨ qMinY > (boxAt B p).maxY
    · rw [if_pos hrej, List.filter_cons_of_neg]
      simp only [hitTest, Bool.not_eq_true]
      rw [if_pos hrej]
    · rw [if_neg hrej, if_pos hleaf, List.filter_cons_of_pos]
      · simp
      · simp only [hitTest]
        rw [if_neg hrej]

theorem scanWindow_internal (numItems : Nat) (B : List Box) (qMinX qMinY qMaxX qMaxY : Int)
    (w lev : Nat) (hleaf : ¬(w < numItems)) :
    ∀ ps, scanWindow numItems B qMinX qMinY qMaxX qMaxY w lev ps =
      ([], (ps.filter (fun p => hitTest qMinX qMinY qMaxX qMaxY (boxAt B p))).map
        (fun p => ((boxAt B p).index.toNat, lev - 1))) := by
  intro ps
  induction ps with
  | nil => rfl
  | cons p rest ih =>
    simp only [scanWindow, ih]
    by_cases hrej : qMaxX < (boxAt B p).minX ∨ qMaxY < (boxAt B p).minY ∨
        qMinX > (boxAt B p).maxX ∨ qMinY > (boxAt B p).maxY
    · rw [if_pos hrej, List.filter_cons_of_neg]
      simp only [hitTest, Bool.not_eq_true]
      rw [if_pos hrej]
    · rw [if_neg hrej, if_neg hleaf, List.filter_cons_of_pos]
      · simp
      · simp only [hitTest]
        rw [if_neg hrej]

/-! ### The traversal loop computes the subtree hits of its queue -/

theorem searchLoop_spec (ns numItems : Nat) (LB : List Nat) (B : List Box)
    (qMinX qMinY qMaxX qMaxY : Int) (hwf : WF ns numItems LB B) :
    ∀ fuel (queue : List (Nat × Nat)) (acc : List Int),
      (∀ en ∈ queue, ValidEntry ns LB en.2 en.1) →
      (queue.map (fun en => (ns + 1) ^ en.2)).sum ≤ fuel →
      (↑(searchLoop ns numItems LB B qMinX qMinY qMaxX qMaxY fuel queue acc) : Multiset Int) =
        ↑acc + (queue.map (fun en => subHits ns LB B qMinX qMinY qMaxX qMaxY en.2 en.1)).sum := by
  have hns : 2 ≤ ns := hwf.1
  intro fuel
  induction fuel with
  | zero =>
    intro queue acc hval hms
    cases queue with
    | nil => simp [searchLoop]
    | cons en rest =>
      exfalso
      simp only [List.map_cons, List.sum_cons] at hms
      have : 1 ≤ (ns + 1) ^ en.2 := Nat.one_le_pow _ _ (by omega)
      omega
  | succ f ih =>
    intro queue acc hval hms
    cases queue with
    | nil => simp [searchLoop]
    | cons en rest =>
      obtain ⟨w, lev⟩ := en
      have hv : ValidEntry ns LB lev w := hval (w, lev) (List.mem_cons_self _ _)
      obtain ⟨hv1, hv2, hv3, hv4⟩ := hv
      simp only [searchLoop]
      by_cases hleaf : w < numItems
      · -- leaf window: lev = 0
        have hlev0 : lev = 0 :=
          (valid_leaf_iff ns numItems LB B hwf lev w ⟨hv1, hv2, hv3, hv4⟩).mp hleaf
        subst hlev0
        rw [scanWindow_leaf numItems B qMinX qMinY qMaxX qMaxY w 0 hleaf]
        simp only [List.reverse_nil, List.nil_append]
        rw [ih rest _ (fun en2 h2 => hval en2 (List.mem_cons_of_mem _ h2))
          (by simp only [List.map_cons, List.sum_cons, pow_zero] at hms; omega)]
        simp only [List.map_cons, List.sum_cons]
        have hsub : (subHits ns LB B qMinX qMinY qMaxX qMaxY 0 w : Multiset Int) =
            ↑(((List.range' w (min (w + ns) (LB.getD 0 0) - w)).filter
              (fun p => hitTest qMinX qMinY qMaxX qMaxY (boxAt B p))).map
              (fun p => (boxAt B p).index)) := rfl
        rw [hsub, ← Multiset.coe_add, add_assoc]
      · -- internal window: lev ≥ 1
        have hlevpos : lev ≠ 0 := by
          intro hcon
          exact hleaf ((valid_leaf_iff ns numItems LB B hwf lev w ⟨hv1, hv2, hv3, hv4⟩).mpr hcon)
        rw [scanWindow_internal numItems B qMinX qMinY qMaxX qMaxY w lev hleaf]
        simp only [List.append_nil]
        set win := List.range' w (min (w + ns) (LB.getD lev 0) - w) with hwindef
        set pushes := (win.filter (fun p => hitTest qMinX qMinY qMaxX qMaxY (boxAt B p))).map
          (fun p => ((boxAt B p).index.toNat, lev - 1)) with hpushdef
        -- each window position is an internal node of level lev
        have hwinmem : ∀ p ∈ win, LB.getD (lev - 1) 0 ≤ p ∧ p < LB.getD lev 0 := by
          intro p hp
          rw [hwindef, mem_range'_iff] at hp
          have : startOf LB lev = LB.getD (lev - 1) 0 := by
            unfold startOf
            rw [if_neg hlevpos]
          omega
        have hpushval : ∀ en2 ∈ pushes, ValidEntry ns LB en2.2 en2.1 := by
          intro en2 hen2
          rw [hpushdef] at hen2
          rw [List.mem_map] at hen2
          obtain ⟨p, hp, rfl⟩ := hen2
          have hp2 := List.mem_of_mem_filter hp
          obtain ⟨hpl, hpu⟩ := hwinmem p hp2
          have hchar := node_char ns numItems LB B hwf lev (by omega) hv1 p hpl hpu
          have hidx : (boxAt B p).index.toNat =
              startOf LB (lev - 1) + (p - LB.getD (lev - 1) 0) * ns := by
            rw [hchar, parentNode_idx]
            exact Int.toNat_ofNat _
          have hcv := child_valid ns numItems LB B hwf lev (by omega) hv1 p hpl hpu
          rw [hidx]
          exact hcv
        have hvalnew : ∀ en2 ∈ pushes.reverse ++ rest, ValidEntry ns LB en2.2 en2.1 := by
          intro en2 hen2
          rw [List.mem_append, List.mem_reverse] at hen2
          rcases hen2 with h | h
          · exact hpushval en2 h
          · exact hval en2 (List.mem_cons_of_mem _ h)
        have hmsnew : ((pushes.reverse ++ rest).map (fun en2 => (ns + 1) ^ en2.2)).sum ≤ f := by
          rw [List.map_append, List.sum_append, List.map_reverse, List.sum_reverse]
          have hplen : pushes.length ≤ ns := by
            rw [hpushdef]
            have h1 : win.length = min (w + ns) (LB.getD lev 0) - w := by
              rw [hwindef, List.length_range']
            have h2 := List.length_filter_le
              (fun p => hitTest qMinX qMinY qMaxX qMaxY (boxAt B p)) win
            simp only [List.length_map]
            omega
          have hpm : (pushes.map (fun en2 => (ns + 1) ^ en2.2)).sum =
              pushes.length * (ns + 1) ^ (lev - 1) := by
            rw [hpushdef, List.map_map]
            have : ((fun en2 : Nat × Nat => (ns + 1) ^ en2.2) ∘
                (fun p => ((boxAt B p).index.toNat, lev - 1))) =
                (fun _ => (ns + 1) ^ (lev - 1)) := rfl
            rw [this, List.map_const', List.sum_replicate, smul_eq_mul]
            simp [List.length_map]
          rw [hpm]
          simp only [List.map_cons, List.sum_cons] at hms
          have hpow : (ns + 1) ^ lev = (ns + 1) ^ (lev - 1) * (ns + 1) := by
            obtain ⟨lv2, rfl⟩ : ∃ lv2, lev = lv2 + 1 := ⟨lev - 1, by omega⟩
            rw [pow_succ]
            simp
          have hpos : 1 ≤ (ns + 1) ^ (lev - 1) := Nat.one_le_pow _ _ (by omega)
          have hmul : pushes.length * (ns + 1) ^ (lev - 1) ≤ ns * (ns + 1) ^ (lev - 1) :=
            Nat.mul_le_mul_right _ hplen
          have hsplit : ns * (ns + 1) ^ (lev - 1) + (ns + 1) ^ (lev - 1) =
              (ns + 1) ^ (lev - 1) * (ns + 1) := by ring
          omega
        rw [ih _ _ hvalnew hmsnew]
        simp only [List.map_append, List.sum_append, List.map_reverse, List.sum_reverse,
          List.map_cons, List.sum_cons]
        -- the pushed entries' subtree hits are exactly subHits at (w, lev)
        have hsub : (pushes.map
            (fun en2 => subHits ns LB B qMinX qMinY qMaxX qMaxY en2.2 en2.1)).sum =
            subHits ns LB B qMinX qMinY qMaxX qMaxY lev w := by
          obtain ⟨lv2, rfl⟩ : ∃ lv2, lev = lv2 + 1 := ⟨lev - 1, by omega⟩
          rw [hpushdef, List.map_map]
          simp only [subHits, Nat.add_sub_cancel]
          rw [← hwindef]
          rfl
        rw [hsub]

end Flatbush

namespace Flatbush

/-- The windows of size `ns` tile the range `[s, e)`: summing any
monoid-valued function over the windows equals summing it over the
range.  `cnt` is the ceiling of `(e-s)/ns`, characterized by the two
inequalities. -/
theorem tile_sum {M : Type} [AddCommMonoid M] (ns : Nat) (hns : 1 ≤ ns) (g : Nat → M) :
    ∀ cnt s e, (cnt - 1) * ns < e - s → e - s ≤ cnt * ns →
      ((List.range' 0 cnt).map
        (fun k => ((List.range' (s + k * ns) (min (s + k * ns + ns) e - (s + k * ns))).map g).sum)).sum
      = ((List.range' s (e - s)).map g).sum := by
  intro cnt
  induction cnt with
  | zero => intro s e h1 h2; omega
  | succ c ih =>
    intro s e h1 h2
    rw [List.range'_succ]
    simp only [List.map_cons, List.sum_cons, Nat.zero_mul, Nat.add_zero, Nat.zero_add]
    by_cases hwide : e ≤ s + ns
    · -- single (possibly short) final window
      have hc0 : c = 0 := by
        by_contra hc
        obtain ⟨c2, rfl⟩ : ∃ c2, c = c2 + 1 := ⟨c - 1, by omega⟩
        have he : (c2 + 1 + 1 - 1) * ns = c2 * ns + ns := by
          have : c2 + 1 + 1 - 1 = c2 + 1 := by omega
          rw [this, Nat.succ_mul]
        omega
      subst hc0
      simp only [List.range'_zero, List.map_nil, List.sum_nil, add_zero]
      have hm : min (s + ns) e = e := by omega
      rw [hm]
    · push_neg at hwide
      have hc1 : 1 ≤ c := by
        by_contra hc
        have hc0 : c = 0 := by omega
        subst hc0
        have he : (0 + 1) * ns = ns := by ring
        rw [he] at h2
        omega
      have hm : min (s + ns) e = s + ns := by omega
      rw [hm]
      have hshift : (List.range' 1 c).map
          (fun k => ((List.range' (s + k * ns) (min (s + k * ns + ns) e - (s + k * ns))).map g).sum) =
          (List.range' 0 c).map
          (fun k => ((List.range' (s + ns + k * ns)
            (min (s + ns + k * ns + ns) e - (s + ns + k * ns))).map g).sum) := by
        rw [← List.map_add_range' 1 0 c 1, List.map_map]
        apply List.map_congr_left
        intro k _
        have he : s + (1 + k) * ns = s + ns + k * ns := by ring
        simp only [Function.comp]
        rw [he]
      rw [hshift, ih (s + ns) e
        (by
          obtain ⟨c2, rfl⟩ : ∃ c2, c = c2 + 1 := ⟨c - 1, by omega⟩
          have e1 : (c2 + 1 + 1 - 1) * ns = c2 * ns + ns := by
            have : c2 + 1 + 1 - 1 = c2 + 1 := by omega
            rw [this, Nat.succ_mul]
          have e2 : (c2 + 1 - 1) * ns = c2 * ns := by
            have : c2 + 1 - 1 = c2 := by omega
            rw [this]
          omega)
        (by
          have e1 : (c + 1) * ns = c * ns + ns := Nat.succ_mul _ _
          omega)]
      have hsplit : List.range' s (e - s) = List.range' s ns ++ List.range' (s + ns) (e - s - ns) := by
        have hap := List.range'_append s ns (e - s - ns) 1
        simp only [Nat.one_mul] at hap
        have he : e - s - ns + ns = e - s := by omega
        rw [he] at hap
        exact hap.symm
      rw [hsplit, List.map_append, List.sum_append]
      have hwin : s + ns - s = ns := by omega
      have htail : e - (s + ns) = e - s - ns := by omega
      rw [hwin, htail]

/-- Coercing a list to a multiset is summing singletons. -/
theorem coe_eq_sum_singletons {α : Type} :
    ∀ l : List α, ((l.map (fun a => ({a} : Multiset α))).sum) = ↑l := by
  intro l
  induction l with
  | nil => rfl
  | cons a rest ih =>
    simp only [List.map_cons, List.sum_cons, ih, Multiset.singleton_add, ← Multiset.cons_coe]

end Flatbush

namespace Flatbush

/-! ### The windows of each level tile the leaf range -/

/-- Summed over all its windows, a level's subtrees cover exactly the
leaf positions `[0, numItems)`, once each. -/
theorem level_tile (ns numItems : Nat) (LB : List Nat) (B : List Box)
    (hwf : WF ns numItems LB B) :
    ∀ lev, lev < LB.length →
      ((List.range' 0 ((LB.getD lev 0 - startOf LB lev + ns - 1) / ns)).map
        (fun k => subLeavesPos ns LB B lev (startOf LB lev + k * ns))).sum
      = (↑(List.range' 0 numItems) : Multiset Nat) := by
  have hns : 2 ≤ ns := hwf.1
  have hni : 1 ≤ numItems := hwf.2.1
  intro lev
  induction lev with
  | zero =>
    intro _
    have hs0 : startOf LB 0 = 0 := rfl
    have hl0 : LB.getD 0 0 = numItems := hwf.2.2.2.1
    simp only [subLeavesPos]
    simp only [← coe_eq_sum_singletons]
    rw [tile_sum ns (by omega) (fun a => ({a} : Multiset Nat))
      ((LB.getD 0 0 - startOf LB 0 + ns - 1) / ns) (startOf LB 0) (LB.getD 0 0)
      (by
        have := ceilDiv_upper ns (LB.getD 0 0 - startOf LB 0) (by omega) (by omega)
        omega)
      (by
        have := ceilDiv_lower ns (LB.getD 0 0 - startOf LB 0) (by omega)
        omega)]
    rw [hs0, hl0, Nat.sub_zero]
  | succ lv ih =>
    intro hlt
    have hlay := WF_layer ns numItems LB B hwf (lv + 1) (by omega) hlt
    simp only [Nat.add_sub_cancel] at hlay
    obtain ⟨hcnt, _⟩ := hlay
    have hs' : startOf LB (lv + 1) = LB.getD lv 0 := by
      unfold startOf
      rw [if_neg (by omega)]
      rfl
    have hlt' := WF_lt ns numItems LB B hwf (lv + 1) hlt
    have hltl := WF_lt ns numItems LB B hwf lv (by omega)
    simp only [subLeavesPos]
    rw [tile_sum ns (by omega) (fun p => subLeavesPos ns LB B lv ((boxAt B p).index.toNat))
      ((LB.getD (lv + 1) 0 - startOf LB (lv + 1) + ns - 1) / ns)
      (startOf LB (lv + 1)) (LB.getD (lv + 1) 0)
      (by
        have := ceilDiv_upper ns (LB.getD (lv + 1) 0 - startOf LB (lv + 1)) (by omega) (by omega)
        omega)
      (by
        have := ceilDiv_lower ns (LB.getD (lv + 1) 0 - startOf LB (lv + 1)) (by omega)
        omega)]
    have hreindex : List.range' (startOf LB (lv + 1))
        (LB.getD (lv + 1) 0 - startOf LB (lv + 1)) =
        (List.range' 0 (LB.getD (lv + 1) 0 - startOf LB (lv + 1))).map
          (fun j => startOf LB (lv + 1) + j) := by
      rw [List.map_add_range' (startOf LB (lv + 1)) 0
        (LB.getD (lv + 1) 0 - startOf LB (lv + 1)) 1]
      simp
    rw [hreindex, List.map_map]
    have hpoint : ∀ j ∈ List.range' 0 (LB.getD (lv + 1) 0 - startOf LB (lv + 1)),
        ((fun p => subLeavesPos ns LB B lv ((boxAt B p).index.toNat)) ∘
          (fun j => startOf LB (lv + 1) + j)) j =
        subLeavesPos ns LB B lv (startOf LB lv + j * ns) := by
      intro j hj
      rw [mem_range'_iff] at hj
      simp only [Function.comp]
      have hchar := node_char ns numItems LB B hwf (lv + 1) (by omega) hlt
        (startOf LB (lv + 1) + j)
        (by simp only [Nat.add_sub_cancel]; omega)
        (by omega)
      simp only [Nat.add_sub_cancel] at hchar
      have hidx : (boxAt B (startOf LB (lv + 1) + j)).index.toNat =
          startOf LB lv + (startOf LB (lv + 1) + j - LB.getD lv 0) * ns := by
        rw [hchar, parentNode_idx]
        exact Int.toNat_ofNat _
      rw [hidx]
      have he : startOf LB (lv + 1) + j - LB.getD lv 0 = j := by omega
      rw [he]
    rw [List.map_congr_left hpoint]
    have hd : LB.getD (lv + 1) 0 - startOf LB (lv + 1) =
        (LB.getD lv 0 - startOf LB lv + ns - 1) / ns := by
      omega
    rw [hd]
    exact ih (by omega)

/-- The root's subtree covers every leaf position exactly once. -/
theorem root_leaves (ns numItems : Nat) (LB : List Nat) (B : List Box)
    (hwf : WF ns numItems LB B) :
    subLeavesPos ns LB B (LB.length - 1) (startOf LB (LB.length - 1)) =
      (↑(List.range' 0 numItems) : Multiset Nat) := by
  have hns : 2 ≤ ns := hwf.1
  have hlen : 2 ≤ LB.length := hwf.2.2.1
  have htile := level_tile ns numItems LB B hwf (LB.length - 1) (by omega)
  have hroot := WF_root ns numItems LB B hwf
  have hcnt : (LB.getD (LB.length - 1) 0 - startOf LB (LB.length - 1) + ns - 1) / ns = 1 := by
    have he : LB.getD (LB.length - 1) 0 - startOf LB (LB.length - 1) + ns - 1 = ns := by omega
    rw [he, Nat.div_self (by omega)]
  rw [hcnt] at htile
  simp only [List.range'_one, List.map_cons, List.map_nil, List.sum_cons, List.sum_nil,
    add_zero, Nat.zero_mul, Nat.add_zero] at htile
  exact htile

/-- On a well-formed finished index, `searchInTree` emits, as a
multiset, exactly the `Index` fields of the leaf positions passing the
intersection test — independently of the incoming results buffer. -/
theorem searchInTree_spec (ns numItems : Nat) (LB : List Nat) (B : List Box)
    (qMinX qMinY qMaxX qMaxY : Int) (buf : List Int) (hwf : WF ns numItems LB B) :
    (↑(searchInTree ns numItems LB B qMinX qMinY qMaxX qMaxY buf) : Multiset Int) =
      (((↑(List.range' 0 numItems) : Multiset Nat).filter
        (fun p => hitTest qMinX qMinY qMaxX qMaxY (boxAt B p) = true)).map
        (fun p => (boxAt B p).index)) := by
  have hns : 2 ≤ ns := hwf.1
  have hlen : 2 ≤ LB.length := hwf.2.2.1
  have hroot := WF_root ns numItems LB B hwf
  have hblen : B.length = LB.getD (LB.length - 1) 0 := hwf.2.2.2.2.1
  have hb1 : B.length - 1 = startOf LB (LB.length - 1) := by omega
  unfold searchInTree
  rw [if_neg (by omega), if_neg (by omega)]
  have hv : ValidEntry ns LB (LB.length - 1) (B.length - 1) :=
    ⟨by omega, by omega, by omega, by rw [hb1]; simp⟩
  have hspec := searchLoop_spec ns numItems LB B qMinX qMinY qMaxX qMaxY hwf
    ((ns + 1) ^ LB.length) [(B.length - 1, LB.length - 1)] []
    (by
      intro en hen
      rw [List.mem_singleton] at hen
      subst hen
      exact hv)
    (by
      simp only [List.map_cons, List.map_nil, List.sum_cons, List.sum_nil, add_zero]
      exact Nat.pow_le_pow_right (by omega) (by omega))
  rw [hspec]
  simp only [List.map_cons, List.map_nil, List.sum_cons, List.sum_nil, add_zero,
    Multiset.coe_nil, zero_add]
  have hv2 : ValidEntry ns LB (LB.length - 1) (startOf LB (LB.length - 1)) := hb1 ▸ hv
  rw [hb1, subHits_eq_filter ns numItems LB B qMinX qMinY qMaxX qMaxY hwf
    (LB.length - 1) (startOf LB (LB.length - 1)) hv2,
    root_leaves ns numItems LB B hwf]

end Flatbush

namespace Flatbush

/-! ### From `finishIndexBuild` to `WF` -/

theorem getLastD_irrel {α : Type} (t : List α) (h : t ≠ []) (a b : α) :
    t.getLastD a = t.getLastD b := by
  cases t with
  | nil => exact absurd rfl h
  | cons x xs => rw [List.getLastD_cons, List.getLastD_cons]

theorem getD_last_eq_getLastD {α : Type} :
    ∀ (l : List α) (d : α), l ≠ [] → l.getD (l.length - 1) d = l.getLastD d := by
  intro l
  induction l with
  | nil => intro d h; exact absurd rfl h
  | cons a t ih =>
    intro d h
    cases t with
    | nil => rfl
    | cons b t2 =>
      have hlen : (a :: b :: t2).length - 1 = (b :: t2).length - 1 + 1 := by
        simp
      rw [hlen, List.getD_cons_succ, ih d (by simp)]
      have hr : (a :: b :: t2).getLastD d = (b :: t2).getLastD a := by
        rw [List.getLastD_cons]
      rw [hr]
      exact getLastD_irrel (b :: t2) (by simp) d a

theorem map_boxAt_append : ∀ (L2 L1 : List Box),
    (List.range' L1.length L2.length).map (fun p => boxAt (L1 ++ L2) p) = L2 := by
  intro L2
  induction L2 with
  | nil => intro L1; rfl
  | cons b t ih =>
    intro L1
    have hr : List.range' L1.length (b :: t).length =
        L1.length :: List.range' (L1.length + 1) t.length := by
      rw [List.length_cons, List.range'_succ]
    rw [hr, List.map_cons]
    have h1 : boxAt (L1 ++ b :: t) L1.length = b := by
      unfold boxAt
      have he : L1.length = L1.length + 0 := rfl
      rw [he, getD_append_right]
      rfl
    have h2 : (List.range' (L1.length + 1) t.length).map (fun p => boxAt (L1 ++ b :: t) p)
        = t := by
      have hassoc : L1 ++ b :: t = (L1 ++ [b]) ++ t := by simp
      have hlen : L1.length + 1 = (L1 ++ [b]).length := by simp
      rw [hassoc, hlen]
      exact ih (L1 ++ [b])
    rw [h1, h2]

theorem map_boxAt_self (L : List Box) :
    (List.range' 0 L.length).map (fun p => boxAt L p) = L := by
  have h := map_boxAt_append L []
  simpa using h

/-- `finishIndexBuild` on a nonempty box list returns a clamped node
size, a well-formed tree, and a leaf prefix that is a permutation of the
input boxes. -/
theorem finishIndexBuild_wf (nodeSize : Int) (boxes : List Box) (bounds : Box)
    (hne : 1 ≤ boxes.length) (ns : Int) (LB hv : List Nat) (B : List Box)
    (heq : finishIndexBuild nodeSize boxes bounds = (ns, LB, hv, B)) :
    2 ≤ ns.toNat ∧ WF ns.toNat boxes.length LB B ∧
    List.Perm ((List.range' 0 boxes.length).map (fun p => boxAt B p)) boxes := by
  have hne0 : boxes.length ≠ 0 := by omega
  simp only [finishIndexBuild] at heq
  rw [if_pos hne0] at heq
  simp only [Prod.mk.injEq] at heq
  obtain ⟨hns, hLB, _, hB⟩ := heq
  have hns2 : 2 ≤ ns.toNat := by
    rw [← hns]
    by_cases h : nodeSize < 2
    · rw [if_pos h]
      rfl
    · rw [if_neg h]
      omega
  set nsN := ns.toNat with hnsN
  have hnseq : (if nodeSize < 2 then (2 : Int) else nodeSize).toNat = nsN := by
    rw [hns]
  rw [hnseq] at hLB hB
  set numItems := boxes.length with hnum
  set hv0 := hilbertValuesOf bounds boxes with hhv0
  have hhv0len : hv0.length = numItems := by
    rw [hhv0]
    unfold hilbertValuesOf
    rw [List.length_map]
  set S := sortValuesAndBoxes (numItems + 1) hv0 boxes 0 (numItems - 1) with hSdef
  have hgo := sortValuesAndBoxes_go (numItems + 1) hv0 boxes 0 (numItems - 1)
    (by omega) (by omega) (by omega)
  rw [← hSdef] at hgo
  have hS2len : S.2.length = numItems := hgo.1.2
  have hpermS : List.Perm S.2 boxes := by
    have hz := hgo.2.1
    have hS1len : S.1.length = numItems := by
      rw [hgo.1.1, hhv0len]
    have h1 : (S.1.zip S.2).map Prod.snd = S.2 :=
      List.map_snd_zip S.1 S.2 (by omega)
    have h2 : (hv0.zip boxes).map Prod.snd = boxes :=
      List.map_snd_zip hv0 boxes (by omega)
    have h3 := hz.map Prod.snd
    rw [h1, h2] at h3
    exact h3
  set rest := buildLevelBoundsGo nsN (numItems + 1) numItems numItems with hrest
  have hchain : Chain nsN numItems numItems rest := by
    rw [hrest]
    exact blbGo_chain nsN hns2 (numItems + 1) numItems numItems (by omega) (by omega)
  have hrestne : rest ≠ [] := chain_ne_nil nsN numItems numItems rest hchain
  obtain ⟨r0, rtail, hrr⟩ := List.exists_cons_of_ne_nil hrestne
  have hLB0 : LB = numItems :: rest := by
    rw [← hLB]
    unfold buildLevelBounds
    rw [hrest]
  have hdrop : LB.dropLast = numItems :: rest.dropLast := by
    rw [hLB0, hrr]
    rfl
  have hBeq : B = packSegments nsN (numItems :: rest.dropLast) S.2 0 := by
    rw [← hB, hLB, hdrop]
  have hpack := pack_go nsN hns2 numItems numItems rest hchain S.2 hS2len
    (by omega) (le_refl _)
  rw [Nat.sub_self] at hpack
  rw [← hBeq] at hpack
  obtain ⟨hplen, hppre, hptree⟩ := hpack
  refine ⟨hns2, ⟨hns2, by omega, ?_, ?_, ?_, ?_⟩, ?_⟩
  · rw [hLB0, List.length_cons, hrr, List.length_cons]
    omega
  · rw [hLB0]
    rfl
  · rw [hplen, hLB0]
    have h1 : (numItems :: rest).length - 1 = rest.length - 1 + 1 := by
      rw [hrr]
      simp
    rw [h1, List.getD_cons_succ]
    exact (getD_last_eq_getLastD rest 0 hrestne).symm
  · rw [hLB0]
    exact hptree
  · have hmapeq : (List.range' 0 numItems).map (fun p => boxAt B p) =
        (List.range' 0 numItems).map (fun p => boxAt S.2 p) := by
      apply List.map_congr_left
      intro p hp
      rw [mem_range'_iff] at hp
      exact hppre p (by omega)
    rw [hmapeq, ← hS2len, map_boxAt_self]
    exact hpermS

end Flatbush

namespace Flatbush

/-! ### The `Add` sequence and the finished index -/

theorem addAll_state : ∀ (specs : List (Int × Int × Int × Int)) (f : FB),
    (addAll f specs).nodeSize = f.nodeSize ∧
    (addAll f specs).levelBounds = f.levelBounds ∧
    (addAll f specs).numItems = f.numItems ∧
    (addAll f specs).boxes = f.boxes ++ mkBoxes f.boxes.length specs := by
  intro specs
  induction specs with
  | nil =>
    intro f
    refine ⟨rfl, rfl, rfl, ?_⟩
    simp [addAll, mkBoxes]
  | cons s rest ih =>
    intro f
    have hconv : addAll f (s :: rest) = addAll (f.add s.1 s.2.1 s.2.2.1 s.2.2.2).1 rest := rfl
    rw [hconv]
    obtain ⟨h1, h2, h3, h4⟩ := ih (f.add s.1 s.2.1 s.2.2.1 s.2.2.2).1
    refine ⟨by rw [h1]; rfl, by rw [h2]; rfl, by rw [h3]; rfl, ?_⟩
    rw [h4]
    have hb : (f.add s.1 s.2.1 s.2.2.1 s.2.2.2).1.boxes =
        f.boxes ++ [⟨s.1, s.2.1, s.2.2.1, s.2.2.2, (f.boxes.length : Int)⟩] := rfl
    rw [hb, List.append_assoc]
    have hlen : (f.boxes ++
        [(⟨s.1, s.2.1, s.2.2.1, s.2.2.2, (f.boxes.length : Int)⟩ : Box)]).length =
        f.boxes.length + 1 := by simp
    rw [hlen]
    rfl

theorem mkBoxes_length : ∀ (specs : List (Int × Int × Int × Int)) (k : Nat),
    (mkBoxes k specs).length = specs.length := by
  intro specs
  induction specs with
  | nil => intro k; rfl
  | cons s rest ih => intro k; simp only [mkBoxes, List.length_cons, ih]

theorem mkBoxes_mem : ∀ (specs : List (Int × Int × Int × Int)) (k : Nat) (b : Box),
    b ∈ mkBoxes k specs ↔ ∃ j, j < specs.length ∧
      b = ⟨(specs.getD j (0, 0, 0, 0)).1, (specs.getD j (0, 0, 0, 0)).2.1,
           (specs.getD j (0, 0, 0, 0)).2.2.1, (specs.getD j (0, 0, 0, 0)).2.2.2,
           ((k + j : Nat) : Int)⟩ := by
  intro specs
  induction specs with
  | nil =>
    intro k b
    simp [mkBoxes]
  | cons s rest ih =>
    intro k b
    simp only [mkBoxes, List.mem_cons]
    constructor
    · intro h
      rcases h with h | h
      · refine ⟨0, by simp, ?_⟩
        rw [h]
        simp
      · obtain ⟨j, hj, hb⟩ := (ih (k + 1) b).mp h
        refine ⟨j + 1, by simp; omega, ?_⟩
        rw [hb]
        simp only [List.getD_cons_succ]
        have he : k + 1 + j = k + (j + 1) := by omega
        rw [he]
    · intro hex
      obtain ⟨j, hj, hb⟩ := hex
      cases j with
      | zero =>
        left
        rw [hb]
        simp
      | succ j2 =>
        right
        apply (ih (k + 1) b).mpr
        refine ⟨j2, by simp at hj; omega, ?_⟩
        rw [hb]
        simp only [List.getD_cons_succ]
        have he : k + (j2 + 1) = k + 1 + j2 := by omega
        rw [he]

theorem mkBoxes_index_mem : ∀ (specs : List (Int × Int × Int × Int)) (k : Nat) (x : Int),
    x ∈ (mkBoxes k specs).map (fun b => b.index) →
    ∃ j, j < specs.length ∧ x = ((k + j : Nat) : Int) := by
  intro specs k x hx
  rw [List.mem_map] at hx
  obtain ⟨b, hb, rfl⟩ := hx
  obtain ⟨j, hj, rfl⟩ := (mkBoxes_mem specs k b).mp hb
  exact ⟨j, hj, rfl⟩

theorem mkBoxes_index_nodup : ∀ (specs : List (Int × Int × Int × Int)) (k : Nat),
    ((mkBoxes k specs).map (fun b => b.index)).Nodup := by
  intro specs
  induction specs with
  | nil => intro k; simp [mkBoxes]
  | cons s rest ih =>
    intro k
    simp only [mkBoxes, List.map_cons]
    rw [List.nodup_cons]
    refine ⟨?_, ih (k + 1)⟩
    intro hmem
    obtain ⟨j, hj, hx⟩ := mkBoxes_index_mem rest (k + 1) _ hmem
    have hcast : (k : Int) = ((k + 1 + j : Nat) : Int) := hx
    omega

/-- The state of `addAll` from a fresh index followed by `Finish`:
`numItems` records the adds, the tree is well-formed, and the leaf
prefix is a permutation of the added boxes. -/
theorem finish_state (specs : List (Int × Int × Int × Int)) (hne : 1 ≤ specs.length) :
    ((addAll newFlatbush specs).finish).numItems = specs.length ∧
    WF ((addAll newFlatbush specs).finish).nodeSize.toNat specs.length
      ((addAll newFlatbush specs).finish).levelBounds
      ((addAll newFlatbush specs).finish).boxes ∧
    List.Perm ((List.range' 0 specs.length).map
      (fun p => boxAt ((addAll newFlatbush specs).finish).boxes p)) (mkBoxes 0 specs) := by
  obtain ⟨h1, h2, h3, h4⟩ := addAll_state specs newFlatbush
  set g := addAll newFlatbush specs with hg
  have hgb : g.boxes = mkBoxes 0 specs := h4
  have hglen : g.boxes.length = specs.length := by
    rw [hgb, mkBoxes_length]
  have hwfres := finishIndexBuild_wf g.nodeSize g.boxes g.bounds (by omega)
    (finishIndexBuild g.nodeSize g.boxes g.bounds).1
    (finishIndexBuild g.nodeSize g.boxes g.bounds).2.1
    (finishIndexBuild g.nodeSize g.boxes g.bounds).2.2.1
    (finishIndexBuild g.nodeSize g.boxes g.bounds).2.2.2 rfl
  obtain ⟨hns2, hwf, hperm⟩ := hwfres
  have e1 : (g.finish).nodeSize = (finishIndexBuild g.nodeSize g.boxes g.bounds).1 := rfl
  have e2 : (g.finish).levelBounds = (finishIndexBuild g.nodeSize g.boxes g.bounds).2.1 := rfl
  have e3 : (g.finish).boxes = (finishIndexBuild g.nodeSize g.boxes g.bounds).2.2.2 := rfl
  have e4 : (g.finish).numItems = g.boxes.length := rfl
  rw [hglen] at hwf hperm
  exact ⟨by rw [e4, hglen], by rw [e1, e2, e3]; exact hwf,
    by rw [e3, ← hgb]; exact hperm⟩

theorem search_multiset_pos (specs : List (Int × Int × Int × Int))
    (qMinX qMinY qMaxX qMaxY : Int) (buf : List Int) (hne : 1 ≤ specs.length) :
    (↑(((addAll newFlatbush specs).finish).searchFast qMinX qMinY qMaxX qMaxY buf)
        : Multiset Int)
      = ↑(((mkBoxes 0 specs).filter
          (fun b => hitTest qMinX qMinY qMaxX qMaxY b)).map (fun b => b.index)) := by
  obtain ⟨hnum, hwf, hperm⟩ := finish_state specs hne
  set f := (addAll newFlatbush specs).finish with hf
  have he : f.searchFast qMinX qMinY qMaxX qMaxY buf =
      searchInTree f.nodeSize.toNat f.numItems f.levelBounds f.boxes
        qMinX qMinY qMaxX qMaxY buf := rfl
  rw [he, hnum,
    searchInTree_spec f.nodeSize.toNat specs.length f.levelBounds f.boxes
      qMinX qMinY qMaxX qMaxY buf hwf]
  rw [Multiset.filter_coe, Multiset.map_coe, Multiset.coe_eq_coe]
  have hfix : (List.range' 0 specs.length).filter
      (fun p => decide (hitTest qMinX qMinY qMaxX qMaxY (boxAt f.boxes p) = true)) =
      (List.range' 0 specs.length).filter
      (fun p => hitTest qMinX qMinY qMaxX qMaxY (boxAt f.boxes p)) := by
    apply List.filter_congr
    intro p _
    simp
  rw [hfix]
  have hl1 : ((List.range' 0 specs.length).filter
      (fun p => hitTest qMinX qMinY qMaxX qMaxY (boxAt f.boxes p))).map
      (fun p => (boxAt f.boxes p).index) =
      (((List.range' 0 specs.length).map (fun p => boxAt f.boxes p)).filter
        (fun b => hitTest qMinX qMinY qMaxX qMaxY b)).map (fun b => b.index) := by
    rw [List.filter_map, List.map_map]
    rfl
  rw [hl1]
  exact (hperm.filter _).map _

/-- The result multiset of any `SearchFast` call on the finished index:
exactly the indices of the added boxes passing the intersection test. -/
theorem search_multiset (specs : List (Int × Int × Int × Int))
    (qMinX qMinY qMaxX qMaxY : Int) (buf : List Int) :
    (↑(((addAll newFlatbush specs).finish).searchFast qMinX qMinY qMaxX qMaxY buf)
        : Multiset Int)
      = ↑(((mkBoxes 0 specs).filter
          (fun b => hitTest qMinX qMinY qMaxX qMaxY b)).map (fun b => b.index)) := by
  cases specs with
  | nil => rfl
  | cons s0 rest =>
    exact search_multiset_pos (s0 :: rest) qMinX qMinY qMaxX qMaxY buf (by simp)

/-- Membership of an index in the search result: exactly the added
indexes whose box passes the four overlap comparisons. -/
theorem search_mem_iff (specs : List (Int × Int × Int × Int))
    (qMinX qMinY qMaxX qMaxY : Int) (x : Int) :
    x ∈ ((addAll newFlatbush specs).finish).search qMinX qMinY qMaxX qMaxY ↔
      ∃ k : Nat, k < specs.length ∧ x = (k : Int) ∧
        (specs.getD k (0, 0, 0, 0)).2.2.1 ≥ qMinX ∧
        (specs.getD k (0, 0, 0, 0)).1 ≤ qMaxX ∧
        (specs.getD k (0, 0, 0, 0)).2.2.2 ≥ qMinY ∧
        (specs.getD k (0, 0, 0, 0)).2.1 ≤ qMaxY := by
  have hms := search_multiset specs qMinX qMinY qMaxX qMaxY []
  have hsearch : ((addAll newFlatbush specs).finish).search qMinX qMinY qMaxX qMaxY =
      ((addAll newFlatbush specs).finish).searchFast qMinX qMinY qMaxX qMaxY [] := rfl
  have hmem : x ∈ ((addAll newFlatbush specs).finish).search qMinX qMinY qMaxX qMaxY ↔
      x ∈ ((mkBoxes 0 specs).filter (fun b => hitTest qMinX qMinY qMaxX qMaxY b)).map
        (fun b => b.index) := by
    rw [← Multiset.mem_coe, hsearch, hms, Multiset.mem_coe]
  rw [hmem, List.mem_map]
  constructor
  · rintro ⟨b, hbf, rfl⟩
    rw [List.mem_filter] at hbf
    obtain ⟨hbm, hhit⟩ := hbf
    obtain ⟨j, hj, rfl⟩ := (mkBoxes_mem specs 0 b).mp hbm
    rw [hitTest_true_iff] at hhit
    obtain ⟨hA, hB, hC, hD⟩ := hhit
    exact ⟨j, hj, by simp, hA, hB, hC, hD⟩
  · rintro ⟨k, hk, rfl, h1, h2, h3, h4⟩
    refine ⟨⟨(specs.getD k (0, 0, 0, 0)).1, (specs.getD k (0, 0, 0, 0)).2.1,
      (specs.getD k (0, 0, 0, 0)).2.2.1, (specs.getD k (0, 0, 0, 0)).2.2.2,
      ((0 + k : Nat) : Int)⟩, ?_, by simp⟩
    rw [List.mem_filter]
    refine ⟨(mkBoxes_mem specs 0 _).mpr ⟨k, hk, rfl⟩, ?_⟩
    rw [hitTest_true_iff]
    exact ⟨h1, h2, h3, h4⟩

end Flatbush

namespace Flatbush

/-- C1: for every index built by adding well-formed finite boxes and
calling `Finish` once, and every query box with `qMinX ≤ qMaxX` and
`qMinY ≤ qMaxY`, the set of indices returned by `Search`/`SearchFast` is
exactly the set of added indices `k` whose box satisfies
`maxX ≥ qMinX ∧ minX ≤ qMaxX ∧ maxY ≥ qMinY ∧ minY ≤ qMaxY` — no false
negatives and no false positives (and `SearchFast` returns the same
result as `Search` for every buffer). -/
theorem search_exact (specs : List (Int × Int × Int × Int))
    (qMinX qMinY qMaxX qMaxY : Int) (hne : 1 ≤ specs.length)
    (hboxes : ∀ s ∈ specs, s.1 ≤ s.2.2.1 ∧ s.2.1 ≤ s.2.2.2 ∧
      -CMAX ≤ s.1 ∧ s.2.2.1 ≤ CMAX ∧ -CMAX ≤ s.2.1 ∧ s.2.2.2 ≤ CMAX)
    (hq : qMinX ≤ qMaxX ∧ qMinY ≤ qMaxY) :
    ∀ (buf : List Int) (x : Int),
      (x ∈ ((addAll newFlatbush specs).finish).search qMinX qMinY qMaxX qMaxY ↔
        ∃ k : Nat, k < specs.length ∧ x = (k : Int) ∧
          (specs.getD k (0, 0, 0, 0)).2.2.1 ≥ qMinX ∧
          (specs.getD k (0, 0, 0, 0)).1 ≤ qMaxX ∧
          (specs.getD k (0, 0, 0, 0)).2.2.2 ≥ qMinY ∧
          (specs.getD k (0, 0, 0, 0)).2.1 ≤ qMaxY) ∧
      ((addAll newFlatbush specs).finish).searchFast qMinX qMinY qMaxX qMaxY buf =
        ((addAll newFlatbush specs).finish).search qMinX qMinY qMaxX qMaxY := by
  intro buf x
  exact ⟨search_mem_iff specs qMinX qMinY qMaxX qMaxY x, rfl⟩

end Flatbush

namespace Flatbush

set_option maxRecDepth 8000 in
theorem search_exact_witness :
    1 ≤ ([((0 : Int), (0 : Int), (1 : Int), (1 : Int)),
          ((10 : Int), (10 : Int), (11 : Int), (11 : Int))]
          : List (Int × Int × Int × Int)).length ∧
    (∀ s ∈ ([((0 : Int), (0 : Int), (1 : Int), (1 : Int)),
          ((10 : Int), (10 : Int), (11 : Int), (11 : Int))]
          : List (Int × Int × Int × Int)), s.1 ≤ s.2.2.1 ∧ s.2.1 ≤ s.2.2.2 ∧
      -CMAX ≤ s.1 ∧ s.2.2.1 ≤ CMAX ∧ -CMAX ≤ s.2.1 ∧ s.2.2.2 ≤ CMAX) ∧
    ((0 : Int) ≤ 2 ∧ (0 : Int) ≤ 2) ∧
    (((0 : Int) ∈ ((addAll newFlatbush [((0 : Int), (0 : Int), (1 : Int), (1 : Int)),
          ((10 : Int), (10 : Int), (11 : Int), (11 : Int))]).finish).search 0 0 2 2 ↔
        ∃ k : Nat, k < ([((0 : Int), (0 : Int), (1 : Int), (1 : Int)),
          ((10 : Int), (10 : Int), (11 : Int), (11 : Int))]
          : List (Int × Int × Int × Int)).length ∧ (0 : Int) = (k : Int) ∧
          (([((0 : Int), (0 : Int), (1 : Int), (1 : Int)),
          ((10 : Int), (10 : Int), (11 : Int), (11 : Int))]
          : List (Int × Int × Int × Int)).getD k (0, 0, 0, 0)).2.2.1 ≥ 0 ∧
          (([((0 : Int), (0 : Int), (1 : Int), (1 : Int)),
          ((10 : Int), (10 : Int), (11 : Int), (11 : Int))]
          : List (Int × Int × Int × Int)).getD k (0, 0, 0, 0)).1 ≤ 2 ∧
          (([((0 : Int), (0 : Int), (1 : Int), (1 : Int)),
          ((10 : Int), (10 : Int), (11 : Int), (11 : Int))]
          : List (Int × Int × Int × Int)).getD k (0, 0, 0, 0)).2.2.2 ≥ 0 ∧
          (([((0 : Int), (0 : Int), (1 : Int), (1 : Int)),
          ((10 : Int), (10 : Int), (11 : Int), (11 : Int))]
          : List (Int × Int × Int × Int)).getD k (0, 0, 0, 0)).2.1 ≤ 2) ∧
      ((addAll newFlatbush [((0 : Int), (0 : Int), (1 : Int), (1 : Int)),
          ((10 : Int), (10 : Int), (11 : Int), (11 : Int))]).finish).searchFast 0 0 2 2 [] =
        ((addAll newFlatbush [((0 : Int), (0 : Int), (1 : Int), (1 : Int)),
          ((10 : Int), (10 : Int), (11 : Int), (11 : Int))]).finish).search 0 0 2 2) :=
  ⟨by decide, by decide, by decide,
    search_exact [((0 : Int), (0 : Int), (1 : Int), (1 : Int)),
      ((10 : Int), (10 : Int), (11 : Int), (11 : Int))] 0 0 2 2
      (by decide) (by decide) (by decide) [] 0⟩

end Flatbush

namespace Flatbush

/-- C10: for every finished index and every query box, the result
sequence of `Search`/`SearchFast` contains no duplicate index. -/
theorem search_nodup (specs : List (Int × Int × Int × Int))
    (qMinX qMinY qMaxX qMaxY : Int) (buf : List Int) :
    (((addAll newFlatbush specs).finish).search qMinX qMinY qMaxX qMaxY).Nodup ∧
    (((addAll newFlatbush specs).finish).searchFast qMinX qMinY qMaxX qMaxY buf).Nodup := by
  have hgen : ∀ b2 : List Int,
      (((addAll newFlatbush specs).finish).searchFast qMinX qMinY qMaxX qMaxY b2).Nodup := by
    intro b2
    have hms := search_multiset specs qMinX qMinY qMaxX qMaxY b2
    have hperm := Multiset.coe_eq_coe.mp hms
    rw [hperm.nodup_iff]
    exact (mkBoxes_index_nodup specs 0).sublist ((List.filter_sublist _).map _)
  exact ⟨hgen [], hgen buf⟩

/-- C9: `SearchFast` truncates the incoming buffer, so a second call in
succession with the same buffer (and indeed any buffer) returns the same
sequence, whose length is the number of added boxes passing the
intersection test. -/
theorem searchFast_buffer_idempotent (specs : List (Int × Int × Int × Int))
    (qMinX qMinY qMaxX qMaxY : Int) (buf : List Int) :
    ((addAll newFlatbush specs).finish).searchFast qMinX qMinY qMaxX qMaxY
        (((addAll newFlatbush specs).finish).searchFast qMinX qMinY qMaxX qMaxY buf) =
      ((addAll newFlatbush specs).finish).searchFast qMinX qMinY qMaxX qMaxY buf ∧
    (∀ buf2 : List Int,
      ((addAll newFlatbush specs).finish).searchFast qMinX qMinY qMaxX qMaxY buf2 =
      ((addAll newFlatbush specs).finish).searchFast qMinX qMinY qMaxX qMaxY buf) ∧
    (((addAll newFlatbush specs).finish).searchFast qMinX qMinY qMaxX qMaxY buf).length =
      ((mkBoxes 0 specs).filter
        (fun b => hitTest qMinX qMinY qMaxX qMaxY b)).length := by
  refine ⟨rfl, fun b2 => rfl, ?_⟩
  have hlen := congrArg Multiset.card (search_multiset specs qMinX qMinY qMaxX qMaxY buf)
  rw [Multiset.coe_card, Multiset.coe_card, List.length_map] at hlen
  exact hlen

/-- C6 (amended): a box added with inverted extents is not special-cased:
its index is emitted exactly when the query passes the same four overlap
comparisons applied to its (inverted) extents — in particular it can
still be emitted, so "never emitted" does not hold. -/
theorem malformed_box_membership (specs : List (Int × Int × Int × Int))
    (k : Nat) (hk : k < specs.length)
    (hmal : (specs.getD k (0, 0, 0, 0)).1 > (specs.getD k (0, 0, 0, 0)).2.2.1 ∨
      (specs.getD k (0, 0, 0, 0)).2.1 > (specs.getD k (0, 0, 0, 0)).2.2.2)
    (qMinX qMinY qMaxX qMaxY : Int) :
    (k : Int) ∈ ((addAll newFlatbush specs).finish).search qMinX qMinY qMaxX qMaxY ↔
      ((specs.getD k (0, 0, 0, 0)).2.2.1 ≥ qMinX ∧
       (specs.getD k (0, 0, 0, 0)).1 ≤ qMaxX ∧
       (specs.getD k (0, 0, 0, 0)).2.2.2 ≥ qMinY ∧
       (specs.getD k (0, 0, 0, 0)).2.1 ≤ qMaxY) := by
  rw [search_mem_iff]
  constructor
  · rintro ⟨j, hj, hkj, h1, h2, h3, h4⟩
    have hjk : k = j := by omega
    subst hjk
    exact ⟨h1, h2, h3, h4⟩
  · intro hc
    obtain ⟨h1, h2, h3, h4⟩ := hc
    exact ⟨k, hk, rfl, h1, h2, h3, h4⟩

set_option maxRecDepth 8000 in
theorem malformed_box_membership_witness :
    (0 < ([((1 : Int), (0 : Int), (0 : Int), (1 : Int))]
        : List (Int × Int × Int × Int)).length) ∧
    ((([((1 : Int), (0 : Int), (0 : Int), (1 : Int))]
        : List (Int × Int × Int × Int)).getD 0 (0, 0, 0, 0)).1 >
      (([((1 : Int), (0 : Int), (0 : Int), (1 : Int))]
        : List (Int × Int × Int × Int)).getD 0 (0, 0, 0, 0)).2.2.1 ∨
     (([((1 : Int), (0 : Int), (0 : Int), (1 : Int))]
        : List (Int × Int × Int × Int)).getD 0 (0, 0, 0, 0)).2.1 >
      (([((1 : Int), (0 : Int), (0 : Int), (1 : Int))]
        : List (Int × Int × Int × Int)).getD 0 (0, 0, 0, 0)).2.2.2) ∧
    (((0 : Nat) : Int) ∈ ((addAll newFlatbush [((1 : Int), (0 : Int), (0 : Int), (1 : Int))]).finish).search 0 0 1 1 ↔
      ((([((1 : Int), (0 : Int), (0 : Int), (1 : Int))]
        : List (Int × Int × Int × Int)).getD 0 (0, 0, 0, 0)).2.2.1 ≥ 0 ∧
       (([((1 : Int), (0 : Int), (0 : Int), (1 : Int))]
        : List (Int × Int × Int × Int)).getD 0 (0, 0, 0, 0)).1 ≤ 1 ∧
       (([((1 : Int), (0 : Int), (0 : Int), (1 : Int))]
        : List (Int × Int × Int × Int)).getD 0 (0, 0, 0, 0)).2.2.2 ≥ 0 ∧
       (([((1 : Int), (0 : Int), (0 : Int), (1 : Int))]
        : List (Int × Int × Int × Int)).getD 0 (0, 0, 0, 0)).2.1 ≤ 1)) :=
  ⟨by decide, by decide,
    malformed_box_membership [((1 : Int), (0 : Int), (0 : Int), (1 : Int))] 0
      (by decide) (by decide) 0 0 1 1⟩

end Flatbush

namespace Flatbush

/-! ### Every array position belongs to a level; node bounds are finite -/

theorem position_level (ns numItems : Nat) (LB : List Nat) (B : List Box)
    (hwf : WF ns numItems LB B) :
    ∀ p, p < B.length → ∃ lev, lev < LB.length ∧ startOf LB lev ≤ p ∧ p < LB.getD lev 0 := by
  have hfind : ∀ j, j < LB.length → ∀ p, p < LB.getD j 0 →
      ∃ lev, lev ≤ j ∧ startOf LB lev ≤ p ∧ p < LB.getD lev 0 := by
    intro j
    induction j with
    | zero =>
      intro hj p hp
      exact ⟨0, le_refl _, by unfold startOf; simp, hp⟩
    | succ j2 ih =>
      intro hj p hp
      by_cases hcase : p < LB.getD j2 0
      · obtain ⟨lev, h1, h2, h3⟩ := ih (by omega) p hcase
        exact ⟨lev, by omega, h2, h3⟩
      · push_neg at hcase
        refine ⟨j2 + 1, le_refl _, ?_, hp⟩
        unfold startOf
        rw [if_neg (by omega)]
        simpa using hcase
  intro p hp
  have hblen : B.length = LB.getD (LB.length - 1) 0 := hwf.2.2.2.2.1
  have hlen : 2 ≤ LB.length := hwf.2.2.1
  obtain ⟨lev, h1, h2, h3⟩ := hfind (LB.length - 1) (by omega) p (by omega)
  exact ⟨lev, by omega, h2, h3⟩

theorem nodes_bounded (ns numItems : Nat) (LB : List Nat) (B : List Box)
    (hwf : WF ns numItems LB B)
    (hleaf : ∀ c, c < numItems → (boxAt B c).minX ≤ CMAX ∧ -CMAX ≤ (boxAt B c).maxX ∧
      (boxAt B c).minY ≤ CMAX ∧ -CMAX ≤ (boxAt B c).maxY) :
    ∀ c, c < B.length → (boxAt B c).minX ≤ CMAX ∧ -CMAX ≤ (boxAt B c).maxX ∧
      (boxAt B c).minY ≤ CMAX ∧ -CMAX ≤ (boxAt B c).maxY := by
  intro c hc
  obtain ⟨lev, hlev, hs, he⟩ := position_level ns numItems LB B hwf c hc
  cases lev with
  | zero =>
    have hni : LB.getD 0 0 = numItems := hwf.2.2.2.1
    exact hleaf c (by omega)
  | succ lv =>
    have hchar := node_char ns numItems LB B hwf (lv + 1) (by omega) hlev c
      (by
        have : startOf LB (lv + 1) = LB.getD lv 0 := by
          unfold startOf
          rw [if_neg (by omega)]
          rfl
        simp only [Nat.add_sub_cancel]
        omega)
      he
    rw [hchar]
    unfold parentNode unionRange
    have hext := foldl_union_extends B
      (List.range' (startOf LB (lv + 1 - 1) + (c - LB.getD (lv + 1 - 1) 0) * ns)
        (min (startOf LB (lv + 1 - 1) + (c - LB.getD (lv + 1 - 1) 0) * ns + ns)
          (LB.getD (lv + 1 - 1) 0) -
         (startOf LB (lv + 1 - 1) + (c - LB.getD (lv + 1 - 1) 0) * ns)))
      ⟨CMAX, CMAX, -CMAX, -CMAX,
        ((startOf LB (lv + 1 - 1) + (c - LB.getD (lv + 1 - 1) 0) * ns : Nat) : Int)⟩
    exact ⟨hext.1, hext.2.2.1, hext.2.1, hext.2.2.2⟩

/-! ### Attainment of the window union's components -/

theorem unionRange_minX_attained (B : List Box) (pos len : Nat) (hlen : 0 < len)
    (hbnd : ∀ c ∈ List.range' pos len, (boxAt B c).minX ≤ CMAX) :
    ∃ c ∈ List.range' pos len, (unionRange B pos len).minX = (boxAt B c).minX := by
  have hcases := foldl_union_cases B (fun b => b.minX)
    (fun nb b => unionStep_minX_cases nb b) (List.range' pos len)
    ⟨CMAX, CMAX, -CMAX, -CMAX, ((pos : Nat) : Int)⟩
  have hmem : pos ∈ List.range' pos len := by
    rw [mem_range'_iff]
    omega
  rcases hcases with h | ⟨c, hc, hcv⟩
  · have h2 : (unionRange B pos len).minX = CMAX := h
    have hle : (unionRange B pos len).minX ≤ (boxAt B pos).minX :=
      (foldl_union_mem B (List.range' pos len) _ pos hmem).1
    have hb := hbnd pos hmem
    exact ⟨pos, hmem, by omega⟩
  · exact ⟨c, hc, hcv⟩

theorem unionRange_minY_attained (B : List Box) (pos len : Nat) (hlen : 0 < len)
    (hbnd : ∀ c ∈ List.range' pos len, (boxAt B c).minY ≤ CMAX) :
    ∃ c ∈ List.range' pos len, (unionRange B pos len).minY = (boxAt B c).minY := by
  have hcases := foldl_union_cases B (fun b => b.minY)
    (fun nb b => unionStep_minY_cases nb b) (List.range' pos len)
    ⟨CMAX, CMAX, -CMAX, -CMAX, ((pos : Nat) : Int)⟩
  have hmem : pos ∈ List.range' pos len := by
    rw [mem_range'_iff]
    omega
  rcases hcases with h | ⟨c, hc, hcv⟩
  · have h2 : (unionRange B pos len).minY = CMAX := h
    have hle : (unionRange B pos len).minY ≤ (boxAt B pos).minY :=
      (foldl_union_mem B (List.range' pos len) _ pos hmem).2.1
    have hb := hbnd pos hmem
    exact ⟨pos, hmem, by omega⟩
  · exact ⟨c, hc, hcv⟩

theorem unionRange_maxX_attained (B : List Box) (pos len : Nat) (hlen : 0 < len)
    (hbnd : ∀ c ∈ List.range' pos len, -CMAX ≤ (boxAt B c).maxX) :
    ∃ c ∈ List.range' pos len, (unionRange B pos len).maxX = (boxAt B c).maxX := by
  have hcases := foldl_union_cases B (fun b => b.maxX)
    (fun nb b => unionStep_maxX_cases nb b) (List.range' pos len)
    ⟨CMAX, CMAX, -CMAX, -CMAX, ((pos : Nat) : Int)⟩
  have hmem : pos ∈ List.range' pos len := by
    rw [mem_range'_iff]
    omega
  rcases hcases with h | ⟨c, hc, hcv⟩
  · have h2 : (unionRange B pos len).maxX = -CMAX := h
    have hle : (boxAt B pos).maxX ≤ (unionRange B pos len).maxX :=
      (foldl_union_mem B (List.range' pos len) _ pos hmem).2.2.1
    have hb := hbnd pos hmem
    exact ⟨pos, hmem, by omega⟩
  · exact ⟨c, hc, hcv⟩

theorem unionRange_maxY_attained (B : List Box) (pos len : Nat) (hlen : 0 < len)
    (hbnd : ∀ c ∈ List.range' pos len, -CMAX ≤ (boxAt B c).maxY) :
    ∃ c ∈ List.range' pos len, (unionRange B pos len).maxY = (boxAt B c).maxY := by
  have hcases := foldl_union_cases B (fun b => b.maxY)
    (fun nb b => unionStep_maxY_cases nb b) (List.range' pos len)
    ⟨CMAX, CMAX, -CMAX, -CMAX, ((pos : Nat) : Int)⟩
  have hmem : pos ∈ List.range' pos len := by
    rw [mem_range'_iff]
    omega
  rcases hcases with h | ⟨c, hc, hcv⟩
  · have h2 : (unionRange B pos len).maxY = -CMAX := h
    have hle : (boxAt B pos).maxY ≤ (unionRange B pos len).maxY :=
      (foldl_union_mem B (List.range' pos len) _ pos hmem).2.2.2
    have hb := hbnd pos hmem
    exact ⟨pos, hmem, by omega⟩
  · exact ⟨c, hc, hcv⟩

end Flatbush

namespace Flatbush

/-- C2: after `Finish` on an index with at least one (well-formed,
finite) box, every entry at a position `p ≥ numItems` is an internal
node: its `Index` field holds the array position `w` of the first
element of its child window, the window runs from `w` to its level's
boundary `e` clipped to at most `NodeSize` entries, it lies strictly
below `p` in array order, and the node's `minX`/`minY`/`maxX`/`maxY`
are the componentwise min/max over that window. -/
theorem internal_node_invariant (specs : List (Int × Int × Int × Int))
    (hne : 1 ≤ specs.length)
    (hboxes : ∀ s ∈ specs, s.1 ≤ s.2.2.1 ∧ s.2.1 ≤ s.2.2.2 ∧
      -CMAX ≤ s.1 ∧ s.2.2.1 ≤ CMAX ∧ -CMAX ≤ s.2.1 ∧ s.2.2.2 ≤ CMAX) :
    ∀ p, ((addAll newFlatbush specs).finish).numItems ≤ p →
      p < ((addAll newFlatbush specs).finish).boxes.length →
      ∃ w e : Nat,
        (boxAt ((addAll newFlatbush specs).finish).boxes p).index = (w : Int) ∧
        w < e ∧ e ≤ p ∧
        min (w + ((addAll newFlatbush specs).finish).nodeSize.toNat) e - w ≤
          ((addAll newFlatbush specs).finish).nodeSize.toNat ∧
        (∃ lev, 1 ≤ lev ∧
          lev < ((addAll newFlatbush specs).finish).levelBounds.length ∧
          e = ((addAll newFlatbush specs).finish).levelBounds.getD (lev - 1) 0 ∧
          startOf ((addAll newFlatbush specs).finish).levelBounds lev ≤ p ∧
          p < ((addAll newFlatbush specs).finish).levelBounds.getD lev 0) ∧
        (∀ c ∈ List.range' w
            (min (w + ((addAll newFlatbush specs).finish).nodeSize.toNat) e - w),
          (boxAt ((addAll newFlatbush specs).finish).boxes p).minX ≤
            (boxAt ((addAll newFlatbush specs).finish).boxes c).minX ∧
          (boxAt ((addAll newFlatbush specs).finish).boxes p).minY ≤
            (boxAt ((addAll newFlatbush specs).finish).boxes c).minY ∧
          (boxAt ((addAll newFlatbush specs).finish).boxes c).maxX ≤
            (boxAt ((addAll newFlatbush specs).finish).boxes p).maxX ∧
          (boxAt ((addAll newFlatbush specs).finish).boxes c).maxY ≤
            (boxAt ((addAll newFlatbush specs).finish).boxes p).maxY) ∧
        (∃ c ∈ List.range' w
            (min (w + ((addAll newFlatbush specs).finish).nodeSize.toNat) e - w),
          (boxAt ((addAll newFlatbush specs).finish).boxes p).minX =
            (boxAt ((addAll newFlatbush specs).finish).boxes c).minX) ∧
        (∃ c ∈ List.range' w
            (min (w + ((addAll newFlatbush specs).finish).nodeSize.toNat) e - w),
          (boxAt ((addAll newFlatbush specs).finish).boxes p).minY =
            (boxAt ((addAll newFlatbush specs).finish).boxes c).minY) ∧
        (∃ c ∈ List.range' w
            (min (w + ((addAll newFlatbush specs).finish).nodeSize.toNat) e - w),
          (boxAt ((addAll newFlatbush specs).finish).boxes p).maxX =
            (boxAt ((addAll newFlatbush specs).finish).boxes c).maxX) ∧
        (∃ c ∈ List.range' w
            (min (w + ((addAll newFlatbush specs).finish).nodeSize.toNat) e - w),
          (boxAt ((addAll newFlatbush specs).finish).boxes p).maxY =
            (boxAt ((addAll newFlatbush specs).finish).boxes c).maxY) := by
  obtain ⟨hnum, hwf, hperm⟩ := finish_state specs hne
  set F := (addAll newFlatbush specs).finish with hF
  set nsN := F.nodeSize.toNat with hnsN
  set LB := F.levelBounds with hLB
  set B := F.boxes with hB
  have hns2 : 2 ≤ nsN := hwf.1
  have hleaf : ∀ c, c < specs.length → (boxAt B c).minX ≤ CMAX ∧
      -CMAX ≤ (boxAt B c).maxX ∧ (boxAt B c).minY ≤ CMAX ∧ -CMAX ≤ (boxAt B c).maxY := by
    intro c hc
    have hmemmap : boxAt B c ∈ (List.range' 0 specs.length).map (fun q => boxAt B q) := by
      rw [List.mem_map]
      exact ⟨c, by rw [mem_range'_iff]; omega, rfl⟩
    have hmk : boxAt B c ∈ mkBoxes 0 specs := hperm.subset hmemmap
    obtain ⟨j, hj, hbeq⟩ := (mkBoxes_mem specs 0 _).mp hmk
    have hmem2 : specs.getD j (0, 0, 0, 0) ∈ specs := by
      rw [getD_lt_length specs j (0, 0, 0, 0) hj]
      exact List.get_mem specs j hj
    obtain ⟨hs1, hs2, hs3, hs4, hs5, hs6⟩ := hboxes (specs.getD j (0, 0, 0, 0)) hmem2
    rw [hbeq]
    refine ⟨?_, ?_, ?_, ?_⟩
    · show (specs.getD j (0, 0, 0, 0)).1 ≤ CMAX
      omega
    · show -CMAX ≤ (specs.getD j (0, 0, 0, 0)).2.2.1
      omega
    · show (specs.getD j (0, 0, 0, 0)).2.1 ≤ CMAX
      omega
    · show -CMAX ≤ (specs.getD j (0, 0, 0, 0)).2.2.2
      omega
  have hbnd := nodes_bounded nsN specs.length LB B hwf hleaf
  intro p hp1 hp2
  rw [hnum] at hp1
  obtain ⟨lev, hlev, hsl, hel⟩ := position_level nsN specs.length LB B hwf p hp2
  have hlev1 : lev ≠ 0 := by
    intro h0
    subst h0
    have hni : LB.getD 0 0 = specs.length := hwf.2.2.2.1
    omega
  obtain ⟨lv, rfl⟩ : ∃ lv, lev = lv + 1 := ⟨lev - 1, by omega⟩
  have hstart : startOf LB (lv + 1) = LB.getD lv 0 := by
    unfold startOf
    rw [if_neg (by omega)]
    rfl
  have hchar := node_char nsN specs.length LB B hwf (lv + 1) (by omega) hlev p
    (by simp only [Nat.add_sub_cancel]; omega) hel
  simp only [Nat.add_sub_cancel] at hchar
  set w := startOf LB lv + (p - LB.getD lv 0) * nsN with hwdef
  set e := LB.getD lv 0 with hedef
  have hwlt : w < e := by
    have := child_window_lt nsN specs.length LB B hwf (lv + 1) (by omega) hlev p
      (by simp only [Nat.add_sub_cancel]; omega) hel
    simp only [Nat.add_sub_cancel] at this
    exact this
  have heB : e ≤ B.length := by
    have hblen : B.length = LB.getD (LB.length - 1) 0 := hwf.2.2.2.2.1
    have hmono := WF_mono nsN specs.length LB B hwf lv (LB.length - 1) (by omega) (by omega)
    omega
  have hwin : ∀ c ∈ List.range' w (min (w + nsN) e - w), w ≤ c ∧ c < min (w + nsN) e := by
    intro c hc
    rw [mem_range'_iff] at hc
    omega
  refine ⟨w, e, ?_, hwlt, by omega, by omega,
    ⟨lv + 1, by omega, hlev, by simp only [Nat.add_sub_cancel], hsl, hel⟩,
    ?_, ?_, ?_, ?_, ?_⟩
  · rw [hchar, parentNode_idx]
  · intro c hc
    obtain ⟨hc1, hc2⟩ := hwin c hc
    have hcont := parentNode_contains nsN B w e c hc1 hc2
    rw [← hchar] at hcont
    exact ⟨hcont.1, hcont.2.1, hcont.2.2.1, hcont.2.2.2⟩
  · rw [hchar]
    exact unionRange_minX_attained B w (min (w + nsN) e - w) (by omega)
      (fun c hc => (hbnd c (by have := hwin c hc; omega)).1)
  · rw [hchar]
    exact unionRange_minY_attained B w (min (w + nsN) e - w) (by omega)
      (fun c hc => (hbnd c (by have := hwin c hc; omega)).2.2.1)
  · rw [hchar]
    exact unionRange_maxX_attained B w (min (w + nsN) e - w) (by omega)
      (fun c hc => (hbnd c (by have := hwin c hc; omega)).2.1)
  · rw [hchar]
    exact unionRange_maxY_attained B w (min (w + nsN) e - w) (by omega)
      (fun c hc => (hbnd c (by have := hwin c hc; omega)).2.2.2)

end Flatbush

namespace Flatbush

set_option maxRecDepth 8000 in
theorem internal_node_invariant_witness :
    1 ≤ ([((0 : Int), (0 : Int), (1 : Int), (1 : Int)), ((2 : Int), (2 : Int), (3 : Int), (3 : Int))] : List (Int × Int × Int × Int)).length ∧
    (∀ s ∈ ([((0 : Int), (0 : Int), (1 : Int), (1 : Int)), ((2 : Int), (2 : Int), (3 : Int), (3 : Int))] : List (Int × Int × Int × Int)), s.1 ≤ s.2.2.1 ∧ s.2.1 ≤ s.2.2.2 ∧
      -CMAX ≤ s.1 ∧ s.2.2.1 ≤ CMAX ∧ -CMAX ≤ s.2.1 ∧ s.2.2.2 ≤ CMAX) ∧
    (∀ p, ((addAll newFlatbush [((0 : Int), (0 : Int), (1 : Int), (1 : Int)), ((2 : Int), (2 : Int), (3 : Int), (3 : Int))]).finish).numItems ≤ p →
      p < ((addAll newFlatbush [((0 : Int), (0 : Int), (1 : Int), (1 : Int)), ((2 : Int), (2 : Int), (3 : Int), (3 : Int))]).finish).boxes.length →
      ∃ w e : Nat,
        (boxAt ((addAll newFlatbush [((0 : Int), (0 : Int), (1 : Int), (1 : Int)), ((2 : Int), (2 : Int), (3 : Int), (3 : Int))]).finish).boxes p).index = (w : Int) ∧
        w < e ∧ e ≤ p ∧
        min (w + ((addAll newFlatbush [((0 : Int), (0 : Int), (1 : Int), (1 : Int)), ((2 : Int), (2 : Int), (3 : Int), (3 : Int))]).finish).nodeSize.toNat) e - w ≤
          ((addAll newFlatbush [((0 : Int), (0 : Int), (1 : Int), (1 : Int)), ((2 : Int), (2 : Int), (3 : Int), (3 : Int))]).finish).nodeSize.toNat ∧
        (∃ lev, 1 ≤ lev ∧
          lev < ((addAll newFlatbush [((0 : Int), (0 : Int), (1 : Int), (1 : Int)), ((2 : Int), (2 : Int), (3 : Int), (3 : Int))]).finish).levelBounds.length ∧
          e = ((addAll newFlatbush [((0 : Int), (0 : Int), (1 : Int), (1 : Int)), ((2 : Int), (2 : Int), (3 : Int), (3 : Int))]).finish).levelBounds.getD (lev - 1) 0 ∧
          startOf ((addAll newFlatbush [((0 : Int), (0 : Int), (1 : Int), (1 : Int)), ((2 : Int), (2 : Int), (3 : Int), (3 : Int))]).finish).levelBounds lev ≤ p ∧
          p < ((addAll newFlatbush [((0 : Int), (0 : Int), (1 : Int), (1 : Int)), ((2 : Int), (2 : Int), (3 : Int), (3 : Int))]).finish).levelBounds.getD lev 0) ∧
        (∀ c ∈ List.range' w
            (min (w + ((addAll newFlatbush [((0 : Int), (0 : Int), (1 : Int), (1 : Int)), ((2 : Int), (2 : Int), (3 : Int), (3 : Int))]).finish).nodeSize.toNat) e - w),
          (boxAt ((addAll newFlatbush [((0 : Int), (0 : Int), (1 : Int), (1 : Int)), ((2 : Int), (2 : Int), (3 : Int), (3 : Int))]).finish).boxes p).minX ≤
            (boxAt ((addAll newFlatbush [((0 : Int), (0 : Int), (1 : Int), (1 : Int)), ((2 : Int), (2 : Int), (3 : Int), (3 : Int))]).finish).boxes c).minX ∧
          (boxAt ((addAll newFlatbush [((0 : Int), (0 : Int), (1 : Int), (1 : Int)), ((2 : Int), (2 : Int), (3 : Int), (3 : Int))]).finish).boxes p).minY ≤
            (boxAt ((addAll newFlatbush [((0 : Int), (0 : Int), (1 : Int), (1 : Int)), ((2 : Int), (2 : Int), (3 : Int), (3 : Int))]).finish).boxes c).minY ∧
          (boxAt ((addAll newFlatbush [((0 : Int), (0 : Int), (1 : Int), (1 : Int)), ((2 : Int), (2 : Int), (3 : Int), (3 : Int))]).finish).boxes c).maxX ≤
            (boxAt ((addAll newFlatbush [((0 : Int), (0 : Int), (1 : Int), (1 : Int)), ((2 : Int), (2 : Int), (3 : Int), (3 : Int))]).finish).boxes p).maxX ∧
          (boxAt ((addAll newFlatbush [((0 : Int), (0 : Int), (1 : Int), (1 : Int)), ((2 : Int), (2 : Int), (3 : Int), (3 : Int))]).finish).boxes c).maxY ≤
            (boxAt ((addAll newFlatbush [((0 : Int), (0 : Int), (1 : Int), (1 : Int)), ((2 : Int), (2 : Int), (3 : Int), (3 : Int))]).finish).boxes p).maxY) ∧
        (∃ c ∈ List.range' w
            (min (w + ((addAll newFlatbush [((0 : Int), (0 : Int), (1 : Int), (1 : Int)), ((2 : Int), (2 : Int), (3 : Int), (3 : Int))]).finish).nodeSize.toNat) e - w),
          (boxAt ((addAll newFlatbush [((0 : Int), (0 : Int), (1 : Int), (1 : Int)), ((2 : Int), (2 : Int), (3 : Int), (3 : Int))]).finish).boxes p).minX =
            (boxAt ((addAll newFlatbush [((0 : Int), (0 : Int), (1 : Int), (1 : Int)), ((2 : Int), (2 : Int), (3 : Int), (3 : Int))]).finish).boxes c).minX) ∧
        (∃ c ∈ List.range' w
            (min (w + ((addAll newFlatbush [((0 : Int), (0 : Int), (1 : Int), (1 : Int)), ((2 : Int), (2 : Int), (3 : Int), (3 : Int))]).finish).nodeSize.toNat) e - w),
          (boxAt ((addAll newFlatbush [((0 : Int), (0 : Int), (1 : Int), (1 : Int)), ((2 : Int), (2 : Int), (3 : Int), (3 : Int))]).finish).boxes p).minY =
            (boxAt ((addAll newFlatbush [((0 : Int), (0 : Int), (1 : Int), (1 : Int)), ((2 : Int), (2 : Int), (3 : Int), (3 : Int))]).finish).boxes c).minY) ∧
        (∃ c ∈ List.range' w
            (min (w + ((addAll newFlatbush [((0 : Int), (0 : Int), (1 : Int), (1 : Int)), ((2 : Int), (2 : Int), (3 : Int), (3 : Int))]).finish).nodeSize.toNat) e - w),
          (boxAt ((addAll newFlatbush [((0 : Int), (0 : Int), (1 : Int), (1 : Int)), ((2 : Int), (2 : Int), (3 : Int), (3 : Int))]).finish).boxes p).maxX =
            (boxAt ((addAll newFlatbush [((0 : Int), (0 : Int), (1 : Int), (1 : Int)), ((2 : Int), (2 : Int), (3 : Int), (3 : Int))]).finish).boxes c).maxX) ∧
        (∃ c ∈ List.range' w
            (min (w + ((addAll newFlatbush [((0 : Int), (0 : Int), (1 : Int), (1 : Int)), ((2 : Int), (2 : Int), (3 : Int), (3 : Int))]).finish).nodeSize.toNat) e - w),
          (boxAt ((addAll newFlatbush [((0 : Int), (0 : Int), (1 : Int), (1 : Int)), ((2 : Int), (2 : Int), (3 : Int), (3 : Int))]).finish).boxes p).maxY =
            (boxAt ((addAll newFlatbush [((0 : Int), (0 : Int), (1 : Int), (1 : Int)), ((2 : Int), (2 : Int), (3 : Int), (3 : Int))]).finish).boxes c).maxY)) :=
  ⟨by decide, by decide,
    internal_node_invariant [((0 : Int), (0 : Int), (1 : Int), (1 : Int)), ((2 : Int), (2 : Int), (3 : Int), (3 : Int))] (by decide) (by decide)⟩

end Flatbush
